import Mathlib

/-!
Verification of the protocol-adapter / streaming-normalization core of the
oai-compatible-copilot extension, as a shallow embedding in Lean 4.

Strings from the TypeScript source are modelled as `List Char`; JSON values
as the inductive `Json` below (with a separate constructor for JavaScript's
`undefined`, whose behaviour differs from `null` under `in`-checks and
spreads).  Stateful per-request decoders are modelled as explicit
state-passing step functions; the events they report to the VS Code
progress sink are collected into lists.
-/

set_option linter.unusedVariables false

namespace OaiCopilot

/-- Characters of a string literal; used to state concrete examples over the
character-list model of TypeScript strings. -/
def chars (s : String) : List Char := s.data

/-! ## Gemini cumulative-text reconciliation

Embedding of the reconciliation step of `GeminiApi.processStreamingResponse`
(geminiApi.ts).  The same three-way branch is used for the joined candidate
text (`textSoFar`), for `pendingThoughtSoFar` and for
`pendingThoughtSummarySoFar`:

  if (incoming.startsWith(sofar)) delta = incoming.slice(sofar.length), sofar = incoming
  else if (sofar.startsWith(incoming)) delta = ""
  else delta = incoming, sofar += incoming
-/

/-- One reconciliation step: given the previously stored cumulative string
and the newly received cumulative string, return the emitted delta and the
new stored value, exactly as the source computes them. -/
def reconcileCumulative (sofar incoming : List Char) : List Char × List Char :=
  if sofar.isPrefixOf incoming then (incoming.drop sofar.length, incoming)
  else if incoming.isPrefixOf sofar then ([], sofar)
  else (incoming, sofar ++ incoming)

/-- Fold `reconcileCumulative` over a stream of cumulative strings starting
from stored value `s`, collecting every delta in order together with the
final stored value.  (The decoder only reports nonempty deltas; empty
deltas contribute nothing to a concatenation either way.) -/
def runCumulativeFrom (s : List Char) : List (List Char) → List (List Char) × List Char
  | [] => ([], s)
  | c :: cs =>
    let step := reconcileCumulative s c
    let rest := runCumulativeFrom step.2 cs
    (step.1 :: rest.1, rest.2)

/-- A list of cumulative strings in which each entry extends the previous one
(first entry extends `s`), i.e. the chain hypothesis of the claim. -/
def CumulativeChainFrom (s : List Char) : List (List Char) → Prop
  | [] => True
  | c :: cs => s.isPrefixOf c ∧ CumulativeChainFrom c cs

instance (s : List Char) (l : List (List Char)) :
    Decidable (CumulativeChainFrom s l) := by
  induction l generalizing s with
  | nil => exact .isTrue trivial
  | cons c cs ih =>
    have : Decidable (CumulativeChainFrom c cs) := ih c
    exact inferInstanceAs (Decidable (_ ∧ _))

/-! ## JSON value model

TypeScript/JavaScript values flowing through the adapters are modelled by
the inductive `Json`.  JavaScript's `undefined` gets its own constructor
because the source distinguishes it from `null` (`in`-checks, spreads,
`Object.entries`).  Object fields are ordered association lists, matching
JavaScript's insertion-order semantics for plain objects. -/

inductive Json where
  | null
  | undef
  | bool (b : Bool)
  | num (n : Int)
  | str (s : List Char)
  | arr (elems : List Json)
  | obj (fields : List (List Char × Json))

/-- Opening brace character (written via its code point). -/
def lbrace : Char := Char.ofNat 123

/-- Closing brace character (written via its code point). -/
def rbrace : Char := Char.ofNat 125

/-- Whitespace for `String.prototype.trim` (restricted to the ASCII
whitespace characters that occur in this development). -/
def isJsWhitespace (c : Char) : Bool :=
  c = ' ' || c = '\t' || c = '\n' || c = '\x0d' || c = '\x0b' || c = '\x0c'

/-- `String.prototype.trim` on the character-list model. -/
def trimList (s : List Char) : List Char :=
  ((s.dropWhile isJsWhitespace).reverse.dropWhile isJsWhitespace).reverse

/-- Lookup in an ordered association list (first match). -/
def getAssoc {κ α : Type} [DecidableEq κ] : List (κ × α) → κ → Option α
  | [], _ => none
  | (k, v) :: rest, key => if k = key then some v else getAssoc rest key

/-- JavaScript property assignment `o[k] = v` (also JS `Map.set`): updates
the value in place when the key exists, otherwise appends the key at the
end. -/
def setAssoc {κ α : Type} [DecidableEq κ] (fs : List (κ × α)) (key : κ) (v : α) :
    List (κ × α) :=
  if fs.any (fun p => p.1 = key) then
    fs.map (fun p => if p.1 = key then (key, v) else p)
  else fs ++ [(key, v)]

/-- JavaScript `delete o[k]` (also JS `Map.delete`): removes the key,
keeping the order of the remaining entries. -/
def delAssoc {κ α : Type} [DecidableEq κ] : List (κ × α) → κ → List (κ × α)
  | [], _ => []
  | (k, v) :: rest, key =>
    if k = key then delAssoc rest key else (k, v) :: delAssoc rest key

/-- `v === undefined`. -/
def Json.isUndef : Json → Bool
  | .undef => true
  | _ => false

/-- `v === null`. -/
def Json.isNull : Json → Bool
  | .null => true
  | _ => false

/-- `v == null` (JavaScript loose equality: true for both null and undefined). -/
def Json.isNullish : Json → Bool
  | .null => true
  | .undef => true
  | _ => false

/-- JavaScript truthiness. -/
def Json.truthy : Json → Bool
  | .null => false
  | .undef => false
  | .bool b => b
  | .num n => n ≠ 0
  | .str s => s ≠ []
  | .arr _ => true
  | .obj _ => true

/-- `typeof v === "object"` (true for objects, arrays and null). -/
def Json.typeofIsObject : Json → Bool
  | .obj _ => true
  | .arr _ => true
  | .null => true
  | _ => false

/-- `v === "lit"`: strict equality against a string literal. -/
def Json.eqStr : Json → List Char → Bool
  | .str s, t => s = t
  | _, _ => false

/-- Entries of a value in the sense of `Object.entries` and object spread:
objects produce their fields in insertion order, arrays produce
index-keyed entries, everything else produces nothing. -/
def Json.entries : Json → List (List Char × Json)
  | .obj fs => fs
  | .arr xs => (xs.enum.map fun p => ((toString p.1).data, p.2))
  | _ => []

/-- Property access `o[k]` (yields `undefined` when absent). -/
def Json.getProp (j : Json) (k : List Char) : Json :=
  (getAssoc j.entries k).getD (.undef : Json)

/-- The `in` operator (`k in o`): key presence, including
`undefined`-valued keys. -/
def Json.member (j : Json) (k : List Char) : Bool :=
  (getAssoc j.entries k).isSome

/-- Escape a character for a JSON string literal (the escapes relevant to
this development). -/
def escapeJsonChar (c : Char) : List Char :=
  if c = '"' then ['\\', '"']
  else if c = '\\' then ['\\', '\\']
  else if c = '\n' then ['\\', 'n']
  else if c = '\t' then ['\\', 't']
  else if c = '\x0d' then ['\\', 'r']
  else [c]

/-- Comma-join pieces of output. -/
def joinComma : List (List Char) → List Char
  | [] => []
  | [x] => x
  | x :: xs => x ++ ',' :: joinComma xs

/-- `JSON.stringify`, fuel-indexed (the fuel bounds the nesting depth and is
always ample at the depths used here).  `undefined` serializes to `none` at
top level, drops object members, and becomes `null` inside arrays, matching
JavaScript. -/
def Json.stringifyF : Nat → Json → Option (List Char)
  | 0, _ => none
  | _ + 1, .null => some (chars "null")
  | _ + 1, .undef => none
  | _ + 1, .bool true => some (chars "true")
  | _ + 1, .bool false => some (chars "false")
  | _ + 1, .num n => some (toString n).data
  | _ + 1, .str s => some ('"' :: s.flatMap escapeJsonChar ++ ['"'])
  | f + 1, .arr xs =>
    some ('[' :: joinComma (xs.map fun x => (Json.stringifyF f x).getD (chars "null")) ++ [']'])
  | f + 1, .obj fs =>
    some (lbrace :: joinComma (fs.filterMap fun p =>
      (Json.stringifyF f p.2).map fun v =>
        '"' :: p.1.flatMap escapeJsonChar ++ '"' :: ':' :: v) ++ [rbrace])

/-- `JSON.stringify` with default fuel. -/
def Json.stringifyTop (j : Json) : List Char :=
  (Json.stringifyF 1000 j).getD (chars "undefined")

/-! ## Canonical output events

The canonical events a decoder reports to the VS Code progress sink. -/

inductive Event where
  | textDelta (s : List Char)
  | thinkingDelta (s : List Char)
  | thinkingEnd
  | toolCall (id : List Char) (name : List Char) (args : Json)

/-- Is the event a canonical tool-call emission? -/
def Event.isToolCall : Event → Bool
  | .toolCall _ _ _ => true
  | _ => false

/-- Does the event emit a tool call with this content key (name plus a
newline plus the serialized arguments — the Gemini deduplication key)? -/
def Event.isToolCallWithKey (key : List Char) : Event → Bool
  | .toolCall _ name args => name ++ '\n' :: Json.stringifyTop args = key
  | _ => false

/-! ## Gemini streamed tool-call deduplication

Embedding of the `functionCall` part handling of
`GeminiApi.processStreamingResponse` (geminiApi.ts): per response, tool
calls are keyed by name plus serialized arguments in `toolCallKeyToId`; a
key seen before emits nothing.  The thought/thought-signature handling in
the same loop only updates thinking state and the process-wide metadata
cache and never emits a `ToolCall`, so it is not part of this embedding.
The id `call_Date.now()_random` is modelled as an injective fresh-id
supply indexed by a counter. -/

structure GeminiFnPart where
  name : Json
  args : Json

/-- The validated function name of a Gemini `functionCall` part:
`typeof fc.name === "string" ? fc.name.trim() : ""`. -/
def GeminiFnPart.validName (fc : GeminiFnPart) : List Char :=
  match fc.name with
  | .str s => trimList s
  | _ => []

/-- The validated argument object of a Gemini `functionCall` part: the raw
`args` when it is a plain (non-array) object, otherwise the empty object. -/
def GeminiFnPart.argsObj (fc : GeminiFnPart) : Json :=
  match fc.args with
  | .obj fs => .obj fs
  | _ => .obj []

structure GeminiToolState where
  toolCallKeyToId : List (List Char × List Char)
  nextId : Nat
  hasEmittedAssistantText : Bool
  emittedBeginToolCallsHint : Bool

/-- The initial per-response state (all decoder state is per request). -/
def GeminiToolState.init : GeminiToolState :=
  { toolCallKeyToId := [], nextId := 0,
    hasEmittedAssistantText := false, emittedBeginToolCallsHint := false }

/-- The deduplication key used by the source:
`name + "\n" + JSON.stringify(argsObj)`. -/
def geminiToolCallKey (name : List Char) (argsObj : Json) : List Char :=
  name ++ '\n' :: Json.stringifyTop argsObj

/-- Process one `functionCall` part (source lines: the `fc` branch of the
parts loop).  `freshId` is the fresh-id supply; the whitespace hint before
the first tool call after assistant text, and the flag bookkeeping, follow
the source.  (The metadata-cache write performed alongside, and the
thinking-state resets, emit no tool-call events and are outside this
embedding.) -/
def geminiProcessFunctionCall (freshId : Nat → List Char) (st : GeminiToolState)
    (fc : GeminiFnPart) : GeminiToolState × List Event :=
  if fc.validName = [] then (st, [])
  else
    let key := geminiToolCallKey fc.validName fc.argsObj
    match getAssoc st.toolCallKeyToId key with
    | some _ => (st, [])
    | none =>
      let id := freshId st.nextId
      let hintCond := !st.emittedBeginToolCallsHint && st.hasEmittedAssistantText
      ({ toolCallKeyToId := st.toolCallKeyToId ++ [(key, id)],
         nextId := st.nextId + 1,
         hasEmittedAssistantText := st.hasEmittedAssistantText,
         emittedBeginToolCallsHint := st.emittedBeginToolCallsHint || hintCond },
       if hintCond then [Event.textDelta [' '], Event.toolCall id fc.validName fc.argsObj]
       else [Event.toolCall id fc.validName fc.argsObj])

/-- Fold the function-call handler over the `functionCall` parts of a
streamed response, in arrival order. -/
def geminiProcessFnParts (freshId : Nat → List Char) (st : GeminiToolState) :
    List GeminiFnPart → GeminiToolState × List Event
  | [] => (st, [])
  | p :: ps =>
    let step := geminiProcessFunctionCall freshId st p
    let rest := geminiProcessFnParts freshId step.1 ps
    (rest.1, step.2 ++ rest.2)

/-- Ids of the tool-call events in an event list, in order. -/
def toolCallIds (evs : List Event) : List (List Char) :=
  evs.filterMap fun e => match e with
    | .toolCall id _ _ => some id
    | _ => none

/-! ## Gemini JSON-Schema conversion

Embedding of `jsonSchemaToGeminiSchema` (geminiApi.ts): `$ref` resolution
with a visited-ref stack, `allOf` inlining, `anyOf`/`oneOf` null-union
flattening into a `nullable` flag, type-array handling, exclusive-bound
degradation, type uppercasing, and the key-by-key translation loop.
Recursion is fuel-indexed; the source recursion is bounded by the ref
stack and schema structure, and the default fuel is ample for every
schema in this development. -/

/-- Object spread `\x7b ...base, ...j \x7d` restricted to adding `j`'s entries on
top of already-collected fields. -/
def spreadFields (base : List (List Char × Json)) (j : Json) : List (List Char × Json) :=
  j.entries.foldl (fun acc p => setAssoc acc p.1 p.2) base

/-- JSON-pointer token decoding: `~1` becomes `/` and `~0` becomes `~`
(single pass is equivalent to the source's two global replaces because the
two patterns cannot overlap and `/` never creates a new occurrence). -/
def decodeRefToken : List Char → List Char
  | [] => []
  | '~' :: '1' :: rest => '/' :: decodeRefToken rest
  | '~' :: '0' :: rest => '~' :: decodeRefToken rest
  | c :: rest => c :: decodeRefToken rest

/-- `String.prototype.split("/")`. -/
def splitOnSlash : List Char → List (List Char)
  | [] => [[]]
  | '/' :: rest => [] :: splitOnSlash rest
  | c :: rest =>
    match splitOnSlash rest with
    | [] => [[c]]
    | seg :: segs => (c :: seg) :: segs

/-- Walk a decoded JSON-pointer path from the root, failing (TS `null`)
when a step is not an object/array or lacks the key. -/
def refWalk : Json → List (List Char) → Option Json
  | cur, [] => some cur
  | cur, p :: ps =>
    if ¬ (cur.truthy && cur.typeofIsObject) then none
    else if ¬ cur.member p then none
    else refWalk (cur.getProp p) ps

/-- Resolve a `$ref` against the root schema (the IIFE in the source);
`.null` models the TS `null` failure result. -/
def resolveRef (root : Json) (ref : List Char) : Json :=
  if ref = ['#'] then root
  else if ¬ (chars "#/").isPrefixOf ref then .null
  else
    let parts := (splitOnSlash (ref.drop 2)).map decodeRefToken
    match refWalk root parts with
    | some cur => if cur.truthy && cur.typeofIsObject then cur else .null
    | none => .null

/-- JavaScript `SameValueZero` equality as used by `Set` for the `required`
dedup: value equality on primitives; distinct object/array literals are
reference-unequal (aliased references do not occur in the schemas this
code receives, which originate from JSON tool declarations). -/
def Json.primEq : Json → Json → Bool
  | .null, .null => true
  | .undef, .undef => true
  | .bool a, .bool b => a = b
  | .num a, .num b => a = b
  | .str a, .str b => a = b
  | _, _ => false

/-- `Array.from(new Set(xs))`: first-occurrence-order dedup. -/
def dedupPrim (xs : List Json) : List Json :=
  xs.foldl (fun acc x => if acc.any (fun y => y.primEq x) then acc else acc ++ [x]) []

/-- One key/value merge step of the `allOf` inlining loop. -/
def allOfMergeEntry (m : List (List Char × Json)) (kv : List Char × Json) :
    List (List Char × Json) :=
  let k := kv.1
  let v := kv.2
  if hp : k = chars "properties" then
    match v with
    | .obj vf =>
      let baseProps := match getAssoc m (chars "properties") with
        | some (.obj bf) => bf
        | _ => []
      setAssoc m (chars "properties") (.obj (spreadFields baseProps (.obj vf)))
    | _ => if (getAssoc m k).isSome then m else m ++ [(k, v)]
  else if hr : k = chars "required" then
    match v with
    | .arr items =>
      let baseReq := match getAssoc m (chars "required") with
        | some (.arr bs) => bs
        | _ => []
      setAssoc m (chars "required") (.arr (dedupPrim (baseReq ++ items)))
    | _ => if (getAssoc m k).isSome then m else m ++ [(k, v)]
  else if (getAssoc m k).isSome then m else m ++ [(k, v)]

/-- ASCII uppercasing (`String.prototype.toUpperCase` on the type names
this code receives). -/
def upperAscii (s : List Char) : List Char := s.map Char.toUpper

/-- The non-`$ref`, non-`allOf` tail of the conversion: null-union
flattening, type arrays, and the key-by-key loop.  `recur` is the
recursive conversion at the next fuel level. -/
def jsonSchemaToGeminiSchemaMain (recur : Json → Json → List (List Char) → Json)
    (jsonSchema root : Json) (refStack : List (List Char)) : Json :=
  let input := spreadFields [] jsonSchema
  let anyOfVal : Option (List Json) :=
    match getAssoc input (chars "anyOf") with
    | some (.arr xs) => some xs
    | _ =>
      match getAssoc input (chars "oneOf") with
      | some (.arr xs) => some xs
      | _ => none
  let unionResult : Option Json :=
    match anyOfVal with
    | some [a0, a1] =>
      let a0o := if a0.truthy && a0.typeofIsObject then a0 else Json.null
      let a1o := if a1.truthy && a1.typeofIsObject then a1 else Json.null
      if (a0o.getProp (chars "type")).eqStr (chars "null") then
        some (.obj (spreadFields [(chars "nullable", .bool true)]
          (recur a1o root refStack)))
      else if (a1o.getProp (chars "type")).eqStr (chars "null") then
        some (.obj (spreadFields [(chars "nullable", .bool true)]
          (recur a0o root refStack)))
      else none
    | _ => none
  match unionResult with
  | some r => r
  | none =>
    let typeArrResult : Option Json :=
      match getAssoc input (chars "type") with
      | some (.arr ts) =>
        let list := ts.filter (fun t => match t with | .str _ => true | _ => false)
        if list.isEmpty then none
        else
          let nonNull := list.filter (fun t => ¬ t.eqStr (chars "null"))
          let mapped := nonNull.map (fun t =>
            recur
              (.obj (setAssoc (setAssoc (setAssoc input (chars "type") t)
                (chars "anyOf") .undef) (chars "oneOf") .undef)) root refStack)
          let out := [(chars "anyOf", Json.arr mapped)]
          let out := if list.any (fun t => t.eqStr (chars "null")) then
              setAssoc out (chars "nullable") (.bool true)
            else out
          some (.obj out)
      | _ => none
    match typeArrResult with
    | some r => r
    | none =>
      let out := input.foldl (fun out kv =>
        let k := kv.1
        let v := kv.2
        if v.isNullish then out
        else if k.head? = some '$' then out
        else if k = chars "additionalProperties" ∨ k = chars "definitions" ∨
            k = chars "$defs" ∨ k = chars "title" ∨ k = chars "examples" ∨
            k = chars "default" then out
        else if k = chars "exclusiveMinimum" then
          match v with
          | .num _ =>
            if (getAssoc out (chars "minimum")).isSome then out
            else setAssoc out (chars "minimum") v
          | _ => out
        else if k = chars "exclusiveMaximum" then
          match v with
          | .num _ =>
            if (getAssoc out (chars "maximum")).isSome then out
            else setAssoc out (chars "maximum") v
          | _ => out
        else if k = chars "allOf" then out
        else if k = chars "type" then
          match v with
          | .str s =>
            if s = chars "null" then out
            else setAssoc out (chars "type") (.str (upperAscii s))
          | _ => out
        else if k = chars "const" then
          if (getAssoc out (chars "enum")).isSome then out
          else setAssoc out (chars "enum") (.arr [v])
        else if k = chars "items" then
          if v.truthy && v.typeofIsObject then
            setAssoc out (chars "items") (recur v root refStack)
          else out
        else if k = chars "properties" then
          match v with
          | .obj pfs =>
            let m := pfs.foldl (fun m pkv =>
              if pkv.2.truthy && pkv.2.typeofIsObject then
                setAssoc m pkv.1 (recur pkv.2 root refStack)
              else m) []
            setAssoc out (chars "properties") (.obj m)
          | _ => out
        else if k = chars "anyOf" ∨ k = chars "oneOf" then
          match v with
          | .arr items =>
            setAssoc out (chars "anyOf") (.arr (items.foldl (fun acc it =>
              if it.truthy && it.typeofIsObject then
                acc ++ [recur it root refStack]
              else acc) []))
          | _ => out
        else setAssoc out k v) []
      let out :=
        if ¬ ((Json.obj out).getProp (chars "type")).truthy ∧
            ((Json.obj out).getProp (chars "properties")).truthy ∧
            ((Json.obj out).getProp (chars "properties")).typeofIsObject then
          setAssoc out (chars "type") (.str (chars "OBJECT"))
        else out
      .obj out

/-- `jsonSchemaToGeminiSchema(jsonSchema, rootSchema, refStack)`,
fuel-indexed. -/
def jsonSchemaToGeminiSchemaF : Nat → Json → Json → List (List Char) → Json
  | 0, _, _, _ => .obj []
  | fuel + 1, jsonSchema, rootSchema, refStack =>
    if ¬ (jsonSchema.truthy && jsonSchema.typeofIsObject) then .obj []
    else
      let root := if rootSchema.truthy && rootSchema.typeofIsObject then rootSchema else jsonSchema
      let ref := match jsonSchema.getProp (chars "$ref") with
        | .str s => trimList s
        | _ => []
      if ref ≠ [] then
        if refStack.contains ref then .obj []
        else
          let resolved := resolveRef root ref
          let merged := spreadFields
            (spreadFields []
              (if resolved.truthy && resolved.typeofIsObject then resolved else .obj []))
            jsonSchema
          jsonSchemaToGeminiSchemaF fuel (.obj (delAssoc merged (chars "$ref"))) root
            (ref :: refStack)
      else
        match jsonSchema.getProp (chars "allOf") with
        | .arr allOfItems =>
          if allOfItems.isEmpty then
            jsonSchemaToGeminiSchemaMain (jsonSchemaToGeminiSchemaF fuel)
              jsonSchema root refStack
          else
            let merged0 := delAssoc (spreadFields [] jsonSchema) (chars "allOf")
            let merged := allOfItems.foldl (fun m it =>
              if ¬ (it.truthy && it.typeofIsObject) then m
              else it.entries.foldl allOfMergeEntry m) merged0
            jsonSchemaToGeminiSchemaF fuel (.obj merged) root refStack
        | _ => jsonSchemaToGeminiSchemaMain (jsonSchemaToGeminiSchemaF fuel)
            jsonSchema root refStack

/-- Top-level entry point with default arguments
(`jsonSchemaToGeminiSchema(s)`), with ample fuel. -/
def jsonSchemaToGeminiSchema (s : Json) : Json :=
  jsonSchemaToGeminiSchemaF 100 s s []

/-! ## JSON parsing

Modelled from the spec: `tryParseJSONObject` lives in src/utils.ts and the
tool-call completion detector in src/commonApi.ts, neither of which is
under src/ (only their callers are).  The spec says the decoder attempts
to "parse the accumulated argument string as a complete JSON object".
This section models `JSON.parse` restricted to the JSON subset exercised
here (numbers are integer literals; floats, being floating point, are
outside the shallow embedding). -/

/-- Value of a hexadecimal digit. -/
def hexVal (c : Char) : Option Nat :=
  if '0' ≤ c ∧ c ≤ '9' then some (c.toNat - 48)
  else if 'a' ≤ c ∧ c ≤ 'f' then some (c.toNat - 87)
  else if 'A' ≤ c ∧ c ≤ 'F' then some (c.toNat - 55)
  else none

/-- Scan a JSON string body after the opening quote: returns the decoded
content and the remainder after the closing quote. -/
def scanStringBody : List Char → Option (List Char × List Char)
  | [] => none
  | '"' :: rest => some ([], rest)
  | '\\' :: e :: rest =>
    if e = 'u' then
      match rest with
      | a :: b :: c :: d :: rest2 =>
        match hexVal a, hexVal b, hexVal c, hexVal d with
        | some x1, some x2, some x3, some x4 =>
          (scanStringBody rest2).map fun p =>
            (Char.ofNat (((x1 * 16 + x2) * 16 + x3) * 16 + x4) :: p.1, p.2)
        | _, _, _, _ => none
      | _ => none
    else
      let dec := if e = 'n' then '\n' else if e = 't' then '\t'
        else if e = 'r' then '\x0d' else if e = 'b' then '\x08'
        else if e = 'f' then '\x0c' else e
      (scanStringBody rest).map fun p => (dec :: p.1, p.2)
  | c :: rest => (scanStringBody rest).map fun p => (c :: p.1, p.2)

/-- Digits to a natural number. -/
def digitsToNat (ds : List Char) : Nat :=
  ds.foldl (fun a c => a * 10 + (c.toNat - 48)) 0

/-- Scan an integer literal. -/
def scanInt : List Char → Option (Json × List Char)
  | '-' :: rest =>
    let ds := rest.takeWhile Char.isDigit
    if ds.isEmpty then none
    else some (.num (-(Int.ofNat (digitsToNat ds))), rest.drop ds.length)
  | s =>
    let ds := s.takeWhile Char.isDigit
    if ds.isEmpty then none
    else some (.num (Int.ofNat (digitsToNat ds)), s.drop ds.length)

/-- Parser continuation: a plain value, the element loop of an array, or
the member loop of an object. -/
inductive JsonParseMode where
  | value
  | arrElems (acc : List Json)
  | objFields (acc : List (List Char × Json))

/-- Recursive-descent JSON parsing, fuel-indexed (fuel is always ample for
the inputs this development evaluates; running out yields a parse
failure, never a wrong result). -/
def parseJsonF : Nat → JsonParseMode → List Char → Option (Json × List Char)
  | 0, _, _ => none
  | f + 1, .value, s =>
    match s.dropWhile isJsWhitespace with
    | [] => none
    | c :: rest =>
      if c = '"' then (scanStringBody rest).map fun p => (.str p.1, p.2)
      else if c = lbrace then
        match rest.dropWhile isJsWhitespace with
        | c2 :: r3 =>
          if c2 = rbrace then some (.obj [], r3)
          else parseJsonF f (.objFields []) (rest.dropWhile isJsWhitespace)
        | [] => none
      else if c = '[' then
        match rest.dropWhile isJsWhitespace with
        | c2 :: r3 =>
          if c2 = ']' then some (.arr [], r3)
          else parseJsonF f (.arrElems []) (rest.dropWhile isJsWhitespace)
        | [] => none
      else if c = 't' then
        match rest with
        | 'r' :: 'u' :: 'e' :: r => some (.bool true, r)
        | _ => none
      else if c = 'f' then
        match rest with
        | 'a' :: 'l' :: 's' :: 'e' :: r => some (.bool false, r)
        | _ => none
      else if c = 'n' then
        match rest with
        | 'u' :: 'l' :: 'l' :: r => some (.null, r)
        | _ => none
      else scanInt (c :: rest)
  | f + 1, .arrElems acc, s =>
    match parseJsonF f .value s with
    | none => none
    | some (v, r) =>
      match r.dropWhile isJsWhitespace with
      | ',' :: r2 => parseJsonF f (.arrElems (acc ++ [v])) r2
      | c :: r2 => if c = ']' then some (.arr (acc ++ [v]), r2) else none
      | [] => none
  | f + 1, .objFields acc, s =>
    match s.dropWhile isJsWhitespace with
    | c :: rest =>
      if c = '"' then
        match scanStringBody rest with
        | none => none
        | some (key, r) =>
          match r.dropWhile isJsWhitespace with
          | ':' :: r2 =>
            match parseJsonF f .value r2 with
            | none => none
            | some (v, r3) =>
              match r3.dropWhile isJsWhitespace with
              | ',' :: r4 => parseJsonF f (.objFields (setAssoc acc key v)) r4
              | c2 :: r4 =>
                if c2 = rbrace then some (.obj (setAssoc acc key v), r4) else none
              | [] => none
          | _ => none
      else none
    | [] => none

/-- Modelled from the spec: the tool-call JSON-completion check (the
`tryParseJSONObject` helper of src/utils.ts used by src/commonApi.ts, both
missing from src/): parse the entire string; succeed exactly when the
whole string is one valid JSON value that is an object, returning its
fields. -/
def tryParseJSONObject (s : List Char) : Option (List (List Char × Json)) :=
  match parseJsonF (2 * s.length + 4) .value s with
  | some (.obj fs, rest) =>
    if (rest.dropWhile isJsWhitespace).isEmpty then some fs else none
  | _ => none

/-! ## Tool-call buffering and flushing

`ToolCallBuffer` and the per-request decoder state, shared by the OpenAI
Chat Completions and OpenAI Responses decoders through `CommonApi`
(src/commonApi.ts, missing from src/).  The buffer/flush primitives are
modelled from the spec; the callers (`OpenaiApi.processDelta`,
`OpenaiApi.processStreamingResponse`, `OpenaiResponsesApi.processEvent`)
are embedded from the source. -/

structure ToolCallBuffer where
  id : Option (List Char)
  name : Option (List Char)
  args : List Char

/-- Per-request decoder state for tool-call buffering (text/thinking
decoder state is independent of it and omitted; `hasEmittedAssistantText`
is set by the text path and read here). -/
structure StreamToolState where
  toolCallBuffers : List (Nat × ToolCallBuffer)
  completedToolCallIndices : List Nat
  hasEmittedAssistantText : Bool
  emittedBeginToolCallsHint : Bool

/-- Fresh per-request state. -/
def StreamToolState.init : StreamToolState :=
  { toolCallBuffers := [], completedToolCallIndices := [],
    hasEmittedAssistantText := false, emittedBeginToolCallsHint := false }

/-- The hard decode error raised by a strict flush. -/
inductive DecodeError where
  | invalidToolCallArguments (idx : Nat) (args : List Char)

/-- Modelled from the spec: `CommonApi.tryEmitBufferedToolCall`
(src/commonApi.ts, missing from src/).  After every buffer mutation the
decoder parses the accumulated argument string; on success, if the index
is not already completed, it emits one canonical ToolCall immediately and
moves the index to the completed set (destroying the buffer). -/
def tryEmitBufferedToolCall (st : StreamToolState) (idx : Nat) :
    StreamToolState × List Event :=
  match getAssoc st.toolCallBuffers idx with
  | none => (st, [])
  | some buf =>
    if st.completedToolCallIndices.contains idx then (st, [])
    else
      match tryParseJSONObject buf.args with
      | none => (st, [])
      | some fs =>
        ({ st with toolCallBuffers := delAssoc st.toolCallBuffers idx,
                   completedToolCallIndices := st.completedToolCallIndices ++ [idx] },
         [Event.toolCall (buf.id.getD []) (buf.name.getD []) (.obj fs)])

/-- The buffer sweep of a flush: emit every parseable not-yet-completed
buffer; an unparseable one raises the hard decode error in strict mode and
is silently dropped in lenient mode. -/
def flushBuffers (throwOnInvalid : Bool) :
    List Nat → List (Nat × ToolCallBuffer) → Except DecodeError (List Nat × List Event)
  | completed, [] => .ok (completed, [])
  | completed, (idx, buf) :: rest =>
    if completed.contains idx then flushBuffers throwOnInvalid completed rest
    else
      match tryParseJSONObject buf.args with
      | some fs =>
        match flushBuffers throwOnInvalid (completed ++ [idx]) rest with
        | .ok (c, evs) =>
          .ok (c, Event.toolCall (buf.id.getD []) (buf.name.getD []) (.obj fs) :: evs)
        | .error e => .error e
      | none =>
        if throwOnInvalid then .error (.invalidToolCallArguments idx buf.args)
        else flushBuffers throwOnInvalid completed rest

/-- Modelled from the spec: `CommonApi.flushToolCallBuffers`
(src/commonApi.ts, missing from src/): sweep every buffered index, then
clear the buffer map. -/
def flushToolCallBuffers (st : StreamToolState) (throwOnInvalid : Bool) :
    Except DecodeError (StreamToolState × List Event) :=
  match flushBuffers throwOnInvalid st.completedToolCallIndices st.toolCallBuffers with
  | .ok (completed, evs) =>
    .ok ({ st with toolCallBuffers := [], completedToolCallIndices := completed }, evs)
  | .error e => .error e

/-! ### OpenAI Chat Completions decoder (embedded from
`OpenaiApi.processDelta` / `processStreamingResponse`, openaiApi.ts) -/

/-- One entry of `choice.delta.tool_calls`.  `id`/`name` are `some` exactly
when the source's truthy-string checks pass; `args` is `some` exactly when
`function.arguments` is a string. -/
structure ToolCallDeltaEntry where
  index : Option Nat
  id : Option (List Char)
  name : Option (List Char)
  args : Option (List Char)

/-- The parts of a streamed chat chunk the tool-call machinery reads:
`choice.delta.tool_calls` (`some []` models a present-but-empty, hence
truthy, array) and `choice.finish_reason`.  The text/reasoning fields of
the same chunk never touch tool-call state and emit no ToolCall events. -/
structure ChatChoiceDelta where
  toolCalls : Option (List ToolCallDeltaEntry)
  finishReason : Option (List Char)

/-- The per-entry body of the `tool_calls` loop in `OpenaiApi.processDelta`. -/
def openaiProcessToolCallEntry (st : StreamToolState) (tc : ToolCallDeltaEntry) :
    StreamToolState × List Event :=
  let idx := tc.index.getD 0
  if st.completedToolCallIndices.contains idx then (st, [])
  else
    let buf := (getAssoc st.toolCallBuffers idx).getD ⟨none, none, []⟩
    let buf := match tc.id with
      | some i => { buf with id := some i }
      | none => buf
    let buf := match tc.name with
      | some n => { buf with name := some n }
      | none => buf
    let buf := match tc.args with
      | some a => { buf with args := buf.args ++ a }
      | none => buf
    tryEmitBufferedToolCall
      { st with toolCallBuffers := setAssoc st.toolCallBuffers idx buf } idx

/-- The `tool_calls` loop. -/
def openaiProcessToolCallEntries (st : StreamToolState) :
    List ToolCallDeltaEntry → StreamToolState × List Event
  | [] => (st, [])
  | tc :: tcs =>
    let step := openaiProcessToolCallEntry st tc
    let rest := openaiProcessToolCallEntries step.1 tcs
    (rest.1, step.2 ++ rest.2)

/-- `OpenaiApi.processDelta`, restricted to the tool-call machinery it is
cited for: the whitespace hint, the `tool_calls` loop, and the strict
flush on `finish_reason` of `tool_calls` or `stop`. -/
def processDelta (st : StreamToolState) (d : ChatChoiceDelta) :
    Except DecodeError (StreamToolState × List Event) :=
  let stepped :=
    match d.toolCalls with
    | none => (st, ([] : List Event))
    | some tcs =>
      let hinted :=
        if ¬ st.emittedBeginToolCallsHint ∧ st.hasEmittedAssistantText ∧ ¬ tcs.isEmpty then
          ({ st with emittedBeginToolCallsHint := true }, [Event.textDelta [' ']])
        else (st, [])
      let looped := openaiProcessToolCallEntries hinted.1 tcs
      (looped.1, hinted.2 ++ looped.2)
  if d.finishReason = some (chars "tool_calls") ∨ d.finishReason = some (chars "stop") then
    match flushToolCallBuffers stepped.1 true with
    | .ok (st2, evs2) => .ok (st2, stepped.2 ++ evs2)
    | .error e => .error e
  else .ok (stepped.1, stepped.2)

/-- Run a sequence of chat chunks (`processStreamingResponse`'s inner loop
over parsed `data:` payloads). -/
def runChatDeltas (st : StreamToolState) :
    List ChatChoiceDelta → Except DecodeError (StreamToolState × List Event)
  | [] => .ok (st, [])
  | d :: ds =>
    match processDelta st d with
    | .error e => .error e
    | .ok (st', evs) =>
      match runChatDeltas st' ds with
      | .error e => .error e
      | .ok (st'', evs') => .ok (st'', evs ++ evs')

/-- One line of the SSE loop of `OpenaiApi.processStreamingResponse`:
non-`data:` lines are skipped; the `data: [DONE]` sentinel triggers the
lenient flush; other payloads are JSON-parsed (abstracted by `parseData`;
unparseable lines are silently ignored) and fed to `processDelta`. -/
def processSseLine (parseData : List Char → Option ChatChoiceDelta)
    (st : StreamToolState) (line : List Char) :
    Except DecodeError (StreamToolState × List Event) :=
  if ¬ (chars "data:").isPrefixOf line then .ok (st, [])
  else
    let data := trimList (line.drop 5)
    if data = chars "[DONE]" then flushToolCallBuffers st false
    else
      match parseData data with
      | none => .ok (st, [])
      | some d => processDelta st d

/-! ### OpenAI Responses decoder (embedded from
`OpenaiResponsesApi.processEvent`, openaiResponsesApi.ts) -/

/-- A `response.function_call_arguments.delta` / `.done` event as the
tool-call machinery reads it.  `callId`/`name` are `some` of the string
value when present; `chunk` is the `delta` (delta events) or `arguments`
(done events) string, empty when absent or not a string. -/
structure ResponsesFnArgsEvent where
  isDone : Bool
  outputIndex : Option Nat
  callId : Option (List Char)
  name : Option (List Char)
  chunk : List Char

/-- The `response.function_call_arguments.delta|done` branch of
`OpenaiResponsesApi.processEvent`. -/
def responsesProcessFnArgsEvent (st : StreamToolState) (ev : ResponsesFnArgsEvent) :
    Except DecodeError (StreamToolState × List Event) :=
  let hinted :=
    if ¬ st.emittedBeginToolCallsHint ∧ st.hasEmittedAssistantText then
      ({ st with emittedBeginToolCallsHint := true }, [Event.textDelta [' ']])
    else (st, ([] : List Event))
  let st := hinted.1
  let idx := ev.outputIndex.getD 0
  if st.completedToolCallIndices.contains idx then .ok (st, hinted.2)
  else
    let buf := (getAssoc st.toolCallBuffers idx).getD ⟨none, none, []⟩
    let buf := match buf.id, ev.callId with
      | none, some c => if ¬ c.isEmpty then { buf with id := some c } else buf
      | _, _ => buf
    let buf := match buf.name, ev.name with
      | none, some n => if ¬ n.isEmpty then { buf with name := some n } else buf
      | _, _ => buf
    let buf :=
      if ev.isDone then { buf with args := ev.chunk }
      else if ¬ ev.chunk.isEmpty then { buf with args := buf.args ++ ev.chunk }
      else buf
    let stepped := tryEmitBufferedToolCall
      { st with toolCallBuffers := setAssoc st.toolCallBuffers idx buf } idx
    if ev.isDone then
      match flushToolCallBuffers stepped.1 true with
      | .ok (st2, evs2) => .ok (st2, hinted.2 ++ stepped.2 ++ evs2)
      | .error e => .error e
    else .ok (stepped.1, hinted.2 ++ stepped.2)

/-- Conservation bookkeeping for the completed-index set across one
decoding step: the number of tool-call emissions equals the growth of the
completed set, the completed set only grows (by appending), and it stays
duplicate-free. -/
def CompletionStep (before after : StreamToolState) (evs : List Event) : Prop :=
  evs.countP Event.isToolCall + before.completedToolCallIndices.length
      = after.completedToolCallIndices.length ∧
  before.completedToolCallIndices <+: after.completedToolCallIndices ∧
  (before.completedToolCallIndices.Nodup → after.completedToolCallIndices.Nodup)

/-! ## Inline-tag reasoning extraction

Modelled from the spec: `CommonApi.processXmlThinkBlocks` and its
`_xmlThinkActive`/`xmlScanBuffer` state live in src/commonApi.ts, which is
not under src/.  The spec: the decoder scans incoming text for the literal
opening tag; on a match, subsequent text is redirected to the reasoning
channel until the closing tag, when normal text resumes; partial tag
fragments spanning a chunk boundary are held in a scan buffer rather than
emitted or discarded. -/

/-- First occurrence of `pat` in a string: the text before it and the text
after it, or `none` when absent. -/
def findSub (pat : List Char) : List Char → Option (List Char × List Char)
  | [] => if pat.isEmpty then some ([], []) else none
  | c :: rest =>
    if pat.isPrefixOf (c :: rest) then some ([], (c :: rest).drop pat.length)
    else (findSub pat rest).map fun p => (c :: p.1, p.2)

/-- Split a string that contains no full occurrence of `pat` into the part
safe to emit and the held tail: the held tail is the longest suffix that
is a prefix of `pat` (a possible partial tag). -/
def splitHold (pat : List Char) : List Char → List Char × List Char
  | [] => ([], [])
  | c :: rest =>
    if (c :: rest).isPrefixOf pat then ([], c :: rest)
    else
      let p := splitHold pat rest
      (c :: p.1, p.2)

/-- The inline-tag scanner state. -/
structure XmlThinkState where
  xmlThinkActive : Bool
  xmlScanBuffer : List Char

/-- Fresh scanner state. -/
def XmlThinkState.init : XmlThinkState := ⟨false, []⟩

/-- The literal opening tag. -/
def thinkOpenTag : List Char := chars "<think>"

/-- The literal closing tag. -/
def thinkCloseTag : List Char := chars "</think>"

/-- Modelled from the spec: one pass of the tag scanner over the buffered
text.  Outside a think block, text up to an opening tag is emitted as a
text delta; inside one, text up to the closing tag is emitted as thinking
deltas followed by ThinkingEnd; when no tag is found, everything except a
possible partial tag at the end is emitted and the partial tag is held. -/
def xmlScanLoop : Nat → XmlThinkState → XmlThinkState × List Event
  | 0, st => (st, [])
  | f + 1, st =>
    if st.xmlThinkActive then
      match findSub thinkCloseTag st.xmlScanBuffer with
      | some (pre, post) =>
        let rest := xmlScanLoop f ⟨false, post⟩
        (rest.1,
          ((if pre.isEmpty then [] else [Event.thinkingDelta pre]) ++
            [Event.thinkingEnd]) ++ rest.2)
      | none =>
        let p := splitHold thinkCloseTag st.xmlScanBuffer
        (⟨true, p.2⟩, if p.1.isEmpty then [] else [Event.thinkingDelta p.1])
    else
      match findSub thinkOpenTag st.xmlScanBuffer with
      | some (pre, post) =>
        let rest := xmlScanLoop f ⟨true, post⟩
        (rest.1, (if pre.isEmpty then [] else [Event.textDelta pre]) ++ rest.2)
      | none =>
        let p := splitHold thinkOpenTag st.xmlScanBuffer
        (⟨false, p.2⟩, if p.1.isEmpty then [] else [Event.textDelta p.1])

/-- Feed one incoming text chunk to the scanner: append it to the scan
buffer and scan. -/
def processXmlThinkChunk (st : XmlThinkState) (chunk : List Char) :
    XmlThinkState × List Event :=
  let buf := st.xmlScanBuffer ++ chunk
  xmlScanLoop (buf.length + 1) ⟨st.xmlThinkActive, buf⟩

/-- Feed a sequence of chunks. -/
def processXmlThinkChunks (st : XmlThinkState) :
    List (List Char) → XmlThinkState × List Event
  | [] => (st, [])
  | c :: cs =>
    let step := processXmlThinkChunk st c
    let rest := processXmlThinkChunks step.1 cs
    (rest.1, step.2 ++ rest.2)

/-! ## Retry executor

Modelled from the spec: `createRetryConfig` and `executeWithRetry` live in
src/utils.ts, which is not under src/ (only the call sites in
src/provider.ts are).  The spec: retry only when enabled and the failing
status code is in `retryableStatusCodes` (default 429, 500, 502, 503, 504,
user-extensible by union), waiting a fixed `intervalMs` between attempts,
up to `maxAttempts` total attempts including the first; exhausting
attempts surfaces the last error unchanged. -/

structure RetryConfig where
  enabled : Bool
  maxAttempts : Nat
  intervalMs : Nat
  retryableStatusCodes : List Nat

/-- Modelled from the spec: `createRetryConfig` — defaults enabled,
3 attempts, 1000 ms, status codes 429/500/502/503/504; user-configured
codes are merged by union. -/
def createRetryConfig (extraCodes : List Nat) : RetryConfig :=
  { enabled := true, maxAttempts := 3, intervalMs := 1000,
    retryableStatusCodes := [429, 500, 502, 503, 504] ++
      extraCodes.filter (fun c => c ∉ ([429, 500, 502, 503, 504] : List Nat)) }

/-- Modelled from the spec: the retry loop.  `outcome i` is the result of
the (i+1)-th HTTP attempt — a failing status code or a success value; the
second argument counts the remaining allowed re-attempts.  Returns the
final result, the total number of attempts made, and the list of waits
performed (one `intervalMs` before each re-attempt). -/
def executeWithRetryFrom {α : Type} (cfg : RetryConfig) (outcome : Nat → Except Nat α) :
    Nat → Nat → Except Nat α × Nat × List Nat
  | i, 0 => (outcome i, 1, [])
  | i, rem + 1 =>
    match outcome i with
    | .ok v => (.ok v, 1, [])
    | .error status =>
      if cfg.enabled ∧ status ∈ cfg.retryableStatusCodes then
        let r := executeWithRetryFrom cfg outcome (i + 1) rem
        (r.1, r.2.1 + 1, cfg.intervalMs :: r.2.2)
      else (.error status, 1, [])

/-- Modelled from the spec: `executeWithRetry` — up to `maxAttempts` total
attempts including the first. -/
def executeWithRetry {α : Type} (cfg : RetryConfig) (outcome : Nat → Except Nat α) :
    Except Nat α × Nat × List Nat :=
  executeWithRetryFrom cfg outcome 0 (cfg.maxAttempts - 1)

/-! ## OpenAI Responses stateful marker

Embedding of `createOpenAIResponsesStatefulMarkerPart` and
`parseOpenAIResponsesStatefulMarkerPart` (src/provider.ts).  The
`TextEncoder`/`TextDecoder` pair is the identity on Unicode scalar
strings, so a `Uint8Array` holding the UTF-8 encoding of a string is
modelled by the decoded string itself; data that is not a `Uint8Array` is
a separate constructor. -/

/-- `HuggingFaceChatModelProvider.OPENAI_RESPONSES_STATEFUL_MARKER_MIME`. -/
def OPENAI_RESPONSES_STATEFUL_MARKER_MIME : List Char :=
  chars "application/vnd.oaicopilot.stateful-marker"

/-- The `data` slot of a candidate part. -/
inductive PartData where
  | bytes (payload : List Char)
  | notBytes

/-- A candidate part as the parser sees it: `mimeType` is `some` of the
value when it is a string, `none` otherwise (also covering non-object
candidates, whose field reads yield non-strings). -/
structure DataPart where
  mimeType : Option (List Char)
  data : PartData

/-- `createOpenAIResponsesStatefulMarkerPart`: payload
`modelId + backslash + marker`, marker MIME type. -/
def createOpenAIResponsesStatefulMarkerPart (modelId marker : List Char) : DataPart :=
  { mimeType := some OPENAI_RESPONSES_STATEFUL_MARKER_MIME,
    data := .bytes (modelId ++ '\\' :: marker) }

/-- `parseOpenAIResponsesStatefulMarkerPart`: checks mime type and data
shape, splits the decoded payload at the first backslash (`indexOf`),
rejects a separator at position ≤ 0, trims both halves and rejects empty
results. -/
def parseOpenAIResponsesStatefulMarkerPart (part : DataPart) :
    Option (List Char × List Char) :=
  match part.mimeType with
  | none => none
  | some mt =>
    match part.data with
    | .notBytes => none
    | .bytes payload =>
      if mt ≠ OPENAI_RESPONSES_STATEFUL_MARKER_MIME then none
      else
        let pre := payload.takeWhile (fun c => ¬ c = '\\')
        match payload.dropWhile (fun c => ¬ c = '\\') with
        | [] => none
        | _ :: after =>
          if pre.isEmpty then none
          else
            let modelId := trimList pre
            let marker := trimList after
            if modelId.isEmpty ∨ marker.isEmpty then none
            else some (modelId, marker)

/-! ## Request bodies: OpenAI Chat Completions and OpenAI Responses

Embeddings of `OpenaiApi.prepareRequestBody` (openaiApi.ts) and
`OpenaiResponsesApi.prepareRequestBody` (openaiResponsesApi.ts) over
ordered association-list bodies, plus the continuity logic of the
`openai-responses` branch of
`HuggingFaceChatModelProvider.provideLanguageModelChatResponse`
(src/provider.ts).  The user model configuration record (`HFModelItem`,
src/types.ts, not under src/) is modelled by the fields these functions
read, with `Json.undef` for an absent field.  The tool conversion
(`convertToolsToOpenAI`/`convertToolsToOpenAIResponses`, src/utils.ts,
not under src/) only supplies the `tools`/`tool_choice` values, which are
taken as parameters. -/

/-- `v` is a string. -/
def Json.isStr : Json → Bool
  | .str _ => true
  | _ => false

/-- `Array.isArray(v)`. -/
def Json.isArr : Json → Bool
  | .arr _ => true
  | _ => false

/-- `v === false`. -/
def Json.eqBoolFalse : Json → Bool
  | .bool false => true
  | _ => false

/-- A request body. -/
abbrev Body := List (List Char × Json)

/-- `if (cond) rb[key] = v` — the shape of most prepareRequestBody steps. -/
def condSet (rb : Body) (cond : Bool) (key : List Char) (v : Json) : Body :=
  if cond then setAssoc rb key v else rb

/-- A sequence of conditional assignments, applied in order. -/
def applyCondSets (rb : Body) (steps : List (Bool × List Char × Json)) : Body :=
  steps.foldl (fun acc s => condSet acc s.1 s.2.1 s.2.2) rb

/-- The fields of the user model configuration the embedded functions
read (`undef` = the field is absent). -/
structure HFModelItem where
  temperature : Json := .undef
  top_p : Json := .undef
  top_k : Json := .undef
  min_p : Json := .undef
  max_tokens : Json := .undef
  max_completion_tokens : Json := .undef
  reasoning_effort : Json := .undef
  enable_thinking : Json := .undef
  thinking_budget : Json := .undef
  thinking : Json := .undef
  reasoning : Json := .undef
  frequency_penalty : Json := .undef
  presence_penalty : Json := .undef
  repetition_penalty : Json := .undef
  extra : Json := (.undef : Json)

/-- The `max_tokens` / `max_completion_tokens` step of the Chat
Completions adapter: mutually exclusive, `max_completion_tokens` taking
precedence. -/
def maxTokenStep (rb : Body) (um : HFModelItem) : Body :=
  if ¬ um.max_completion_tokens.isUndef then
    setAssoc rb (chars "max_completion_tokens") um.max_completion_tokens
  else if ¬ um.max_tokens.isUndef then
    setAssoc rb (chars "max_tokens") um.max_tokens
  else rb

/-- The OpenRouter `reasoning` configuration step of the Chat Completions
adapter. -/
def openrouterReasoningStep (rb : Body) (um : HFModelItem) : Body :=
  if ¬ um.reasoning.isUndef then
    if (um.reasoning.getProp (chars "enabled")).eqBoolFalse then rb
    else
      let effort := um.reasoning.getProp (chars "effort")
      let mt := um.reasoning.getProp (chars "max_tokens")
      let maxTokensReasoning := if mt.truthy then mt else Json.num 2000
      let robj : Body :=
        if effort.truthy && !(effort.eqStr (chars "auto")) then
          [(chars "effort", effort)]
        else [(chars "max_tokens", maxTokensReasoning)]
      let robj :=
        if ¬ (um.reasoning.getProp (chars "exclude")).isUndef then
          robj ++ [(chars "exclude", um.reasoning.getProp (chars "exclude"))]
        else robj
      setAssoc rb (chars "reasoning") (.obj robj)
  else rb

/-- One entry of the extra-parameters merge: a defined value is written
verbatim. -/
def mergeExtraStep (acc : Body) (p : List Char × Json) : Body :=
  if p.2.isUndef then acc else setAssoc acc p.1 p.2

/-- The extra-parameters merge of the Chat Completions adapter: every
defined entry is written verbatim, last. -/
def mergeExtra (rb : Body) (extra : Json) : Body :=
  if extra.truthy && extra.typeofIsObject then
    extra.entries.foldl mergeExtraStep rb
  else rb

/-- `OpenaiApi.prepareRequestBody`: field-by-field, in source order. -/
def openaiPrepareRequestBody (rb : Body) (um : HFModelItem)
    (modelOptions tools toolChoice : Json) : Body :=
  let rb := applyCondSets rb
    [(!um.temperature.isUndef && !um.temperature.isNull, chars "temperature",
        um.temperature),
     (!um.top_p.isUndef && !um.top_p.isNull, chars "top_p", um.top_p)]
  let rb := maxTokenStep rb um
  let rb := applyCondSets rb
    [(!um.reasoning_effort.isUndef, chars "reasoning_effort", um.reasoning_effort),
     (!um.enable_thinking.isUndef, chars "enable_thinking", um.enable_thinking),
     (!um.enable_thinking.isUndef && !um.thinking_budget.isUndef,
        chars "thinking_budget", um.thinking_budget),
     (!(um.thinking.getProp (chars "type")).isUndef, chars "thinking",
        .obj [(chars "type", um.thinking.getProp (chars "type"))])]
  let rb := openrouterReasoningStep rb um
  let stop := modelOptions.getProp (chars "stop")
  let rb := applyCondSets rb
    [(modelOptions.truthy && (stop.isStr || stop.isArr), chars "stop", stop),
     (tools.truthy, chars "tools", tools),
     (toolChoice.truthy, chars "tool_choice", toolChoice),
     (!um.top_k.isUndef, chars "top_k", um.top_k),
     (!um.min_p.isUndef, chars "min_p", um.min_p),
     (!um.frequency_penalty.isUndef, chars "frequency_penalty", um.frequency_penalty),
     (!um.presence_penalty.isUndef, chars "presence_penalty", um.presence_penalty),
     (!um.repetition_penalty.isUndef, chars "repetition_penalty",
        um.repetition_penalty)]
  mergeExtra rb um.extra

/-- The starting chat-completions body built in provider.ts. -/
def openaiBaseBody (model messages : Json) : Body :=
  [(chars "model", model), (chars "messages", messages),
   (chars "stream", .bool true),
   (chars "stream_options", .obj [(chars "include_usage", .bool true)])]

/-- The `max_output_tokens` step of the Responses adapter (a single field,
`max_completion_tokens` taking precedence). -/
def maxOutputTokensStep (rb : Body) (um : HFModelItem) : Body :=
  if ¬ um.max_completion_tokens.isUndef then
    setAssoc rb (chars "max_output_tokens") um.max_completion_tokens
  else if ¬ um.max_tokens.isUndef then
    setAssoc rb (chars "max_output_tokens") um.max_tokens
  else rb

/-- The `reasoning.effort` deep-merge step of the Responses adapter. -/
def reasoningEffortStep (rb : Body) (um : HFModelItem) : Body :=
  if ¬ um.reasoning_effort.isUndef then
    let existing : Body := match getAssoc rb (chars "reasoning") with
      | some (.obj fs) => fs
      | _ => []
    setAssoc rb (chars "reasoning")
      (.obj (setAssoc existing (chars "effort") um.reasoning_effort))
  else rb

/-- The fields of a plain (non-array, non-null) object, `none` otherwise
(`isPlainObject`). -/
def Json.objFields? : Json → Option (List (List Char × Json))
  | .obj fs => some fs
  | _ => none

/-- One entry of the Responses extra-parameters merge: a plain-object
`reasoning` value deep-merges into an existing plain-object `reasoning`
field instead of replacing it. -/
def mergeExtraResponsesStep (acc : Body) (p : List Char × Json) : Body :=
  if p.2.isUndef then acc
  else if p.1 = chars "reasoning" then
    match Json.objFields? p.2,
        Json.objFields? ((getAssoc acc (chars "reasoning")).getD .undef) with
    | some vf, some ef =>
      setAssoc acc (chars "reasoning") (.obj (spreadFields ef (.obj vf)))
    | _, _ => setAssoc acc p.1 p.2
  else setAssoc acc p.1 p.2

/-- The extra-parameters merge of the Responses adapter. -/
def mergeExtraResponses (rb : Body) (extra : Json) : Body :=
  if extra.truthy && extra.typeofIsObject then
    extra.entries.foldl mergeExtraResponsesStep rb
  else rb

/-- `OpenaiResponsesApi.prepareRequestBody`: field-by-field, in source
order.  `systemContent` is the `_systemContent` captured during message
conversion. -/
def responsesPrepareRequestBody (rb : Body) (um : HFModelItem)
    (systemContent modelOptions tools toolChoice : Json) : Body :=
  let rb := applyCondSets rb
    [(systemContent.truthy, chars "instructions", systemContent),
     (!um.temperature.isUndef && !um.temperature.isNull, chars "temperature",
        um.temperature),
     (!um.top_p.isUndef && !um.top_p.isNull, chars "top_p", um.top_p)]
  let rb := maxOutputTokensStep rb um
  let rb := reasoningEffortStep rb um
  let stop := modelOptions.getProp (chars "stop")
  let rb := applyCondSets rb
    [(!(um.thinking.getProp (chars "type")).isUndef, chars "thinking",
        .obj [(chars "type", um.thinking.getProp (chars "type"))]),
     (modelOptions.truthy && (stop.isStr || stop.isArr), chars "stop", stop),
     (tools.truthy, chars "tools", tools),
     (toolChoice.truthy, chars "tool_choice", toolChoice)]
  mergeExtraResponses rb um.extra

/-! ## Responses continuity flow (provider.ts, `openai-responses` branch) -/

/-- The starting Responses body built in provider.ts. -/
def responsesBaseBody (model input : Json) : Body :=
  [(chars "model", model), (chars "input", input), (chars "stream", .bool true)]

/-- The inputs of one Responses-mode send as the provider computes them
before the continuity logic.  Message conversion is outside this
embedding: `fullInput` is the converted full history; `deltaInput` is
`some` of the converted slice after the marker exactly when the marker
was found strictly before the last message and the slice converted to a
nonempty list; `marker` is the marker string found by
`findLastOpenAIResponsesStatefulMarker`. -/
structure ResponsesFlowInput where
  baseUrl : List Char
  modelId : Json
  fullInput : Json
  deltaInput : Option Json
  marker : Option (List Char)
  um : HFModelItem
  systemContent : Json
  modelOptions : Json
  tools : Json
  toolChoice : Json

/-- The request body about to be sent and whether `previous_response_id`
was attached automatically (`addedPreviousResponseId`). -/
def responsesAttachState (unsupported : List (List Char))
    (inp : ResponsesFlowInput) : Body × Bool :=
  let canUse := inp.marker.isSome && !(unsupported.contains inp.baseUrl) &&
    inp.deltaInput.isSome
  let input := if canUse then inp.deltaInput.getD inp.fullInput else inp.fullInput
  let rb1 := responsesPrepareRequestBody (responsesBaseBody inp.modelId input)
    inp.um inp.systemContent inp.modelOptions inp.tools inp.toolChoice
  if (getAssoc rb1 (chars "previous_response_id")).isSome then
    (setAssoc rb1 (chars "input") inp.fullInput, false)
  else if canUse then
    (setAssoc rb1 (chars "previous_response_id") (.str (inp.marker.getD [])), true)
  else (rb1, false)

/-- One Responses-mode send with the continuity fallback: returns the
request bodies sent in order (each `http` call stands for one
`sendRequest`, i.e. one retry-wrapped HTTP attempt group), the updated
unsupported-base-URL set, whether `previous_response_id` was attached
automatically, and the final outcome. -/
def responsesFlow (unsupported : List (List Char)) (inp : ResponsesFlowInput)
    (http : Body → Except Nat Unit) :
    List Body × List (List Char) × Bool × Except Nat Unit :=
  let a := responsesAttachState unsupported inp
  match http a.1 with
  | .ok _ => ([a.1], unsupported, a.2, .ok ())
  | .error status =>
    if a.2 = true ∧ 400 ≤ status ∧ status < 500 ∧ ¬ status = 429 then
      let unsupported' := unsupported ++ [inp.baseUrl]
      let fb1 := responsesPrepareRequestBody
        (responsesBaseBody inp.modelId inp.fullInput)
        inp.um inp.systemContent inp.modelOptions inp.tools inp.toolChoice
      let fb2 := delAssoc fb1 (chars "previous_response_id")
      ([a.1, fb2], unsupported', a.2, http fb2)
    else ([a.1], unsupported, a.2, .error status)

/-- A concrete Responses-mode input exercising the continuity flow. -/
def responsesFlowExample : ResponsesFlowInput :=
  { baseUrl := chars "https://example", modelId := .str (chars "m"),
    fullInput := .arr [.str (chars "full")],
    deltaInput := some (.arr [.str (chars "delta")]),
    marker := some (chars "resp_1"), um := {}, systemContent := .undef,
    modelOptions := .undef, tools := .undef, toolChoice := .undef }

/-- A concrete transport rejecting any body carrying
`previous_response_id` with status 404 and accepting any other body. -/
def responsesHttpExample : Body → Except Nat Unit := fun b =>
  if (getAssoc b (chars "previous_response_id")).isSome then .error 404
  else .ok ()

-- ### Theorems

section Theorems

theorem isPrefixOf_iff {l₁ l₂ : List Char} : l₁.isPrefixOf l₂ ↔ l₁ <+: l₂ :=
  List.isPrefixOf_iff_prefix

theorem prefix_append_drop {s t : List Char} (h : s <+: t) :
    s ++ t.drop s.length = t := by
  obtain ⟨r, rfl⟩ := h
  simp

/-- Helper: on a chain of prefix-extensions, the stored value tracks the
last cumulative string and the emitted deltas concatenate to the suffix
past the initial stored value. -/
theorem runCumulativeFrom_chain (chunks : List (List Char)) :
    ∀ s, CumulativeChainFrom s chunks →
      s ++ (runCumulativeFrom s chunks).1.flatten = (runCumulativeFrom s chunks).2 ∧
      (runCumulativeFrom s chunks).2 = List.getLast (s :: chunks) (by simp) := by
  induction chunks with
  | nil => intro s _; simp [runCumulativeFrom]
  | cons c cs ih =>
    intro s h
    obtain ⟨hpre, hchain⟩ := h
    have hstep : reconcileCumulative s c = (c.drop s.length, c) := by
      unfold reconcileCumulative
      rw [if_pos hpre]
    have hrec := ih c hchain
    constructor
    · simp only [runCumulativeFrom, hstep, List.flatten_cons]
      rw [← List.append_assoc]
      rw [prefix_append_drop (isPrefixOf_iff.mp hpre)]
      exact hrec.1
    · simp only [runCumulativeFrom, hstep]
      rw [hrec.2]
      rcases cs with _ | ⟨d, ds⟩
      · simp [List.getLast]
      · simp [List.getLast]

/-- C1 counterexample: the claim says a divergent restart resets the stored
value to the new cumulative string S' (here "cd").  On the source, after
previously stored "ab" receives the divergent "cd", the emitted delta is
"cd" but the stored value becomes "abcd" — the old value with S' appended —
not "cd". -/
theorem C1_counterexample :
    reconcileCumulative (chars "ab") (chars "cd") =
      (chars "cd", chars "abcd") ∧
    (reconcileCumulative (chars "ab") (chars "cd")).2 ≠ chars "cd" := by
  constructor <;> decide

/-- C1 (amended).  Cumulative-text reconciliation for the Gemini decoder's
cumulative strings, with previously stored S and newly received S':
if S' starts with S, exactly the suffix of S' past S is emitted and the
stored value becomes S'; if S starts with S', nothing is emitted and the
stored value is unchanged; otherwise (divergent restart) S' is emitted in
full as a new delta and the stored value becomes S followed by S' (S' is
appended to the old stored value, not a reset).  Consequently, for any
nonempty sequence S1, ..., Sn where each entry is a prefix-extension of the
previous one, the concatenation of all emitted deltas equals Sn. -/
theorem C1_reconcileCumulative_spec (s t : List Char) :
    (s.isPrefixOf t →
      reconcileCumulative s t = (t.drop s.length, t) ∧
      s ++ (reconcileCumulative s t).1 = t) ∧
    (¬ s.isPrefixOf t → t.isPrefixOf s →
      reconcileCumulative s t = ([], s)) ∧
    (¬ s.isPrefixOf t → ¬ t.isPrefixOf s →
      reconcileCumulative s t = (t, s ++ t)) ∧
    (∀ (chunks : List (List Char)) (hne : chunks ≠ []),
      CumulativeChainFrom [] chunks →
      (runCumulativeFrom [] chunks).1.flatten = List.getLast chunks hne) := by
  refine ⟨?_, ?_, ?_, ?_⟩
  · intro hpre
    have hstep : reconcileCumulative s t = (t.drop s.length, t) := by
      unfold reconcileCumulative; rw [if_pos hpre]
    exact ⟨hstep, by rw [hstep]; exact prefix_append_drop (isPrefixOf_iff.mp hpre)⟩
  · intro h1 h2
    unfold reconcileCumulative; rw [if_neg h1, if_pos h2]
  · intro h1 h2
    unfold reconcileCumulative; rw [if_neg h1, if_neg h2]
  · intro chunks hne hchain
    have h := runCumulativeFrom_chain chunks [] hchain
    have h1 := h.1
    rw [h.2] at h1
    simp only [List.nil_append] at h1
    rw [h1]
    rcases chunks with _ | ⟨c, cs⟩
    · exact absurd rfl hne
    · simp [List.getLast]

/-- Witness for C1: instantiates every hypothesis of the amended theorem at
concrete inputs ("ab" extending to "abc"; "ab" resending prefix "a";
divergence "ab" then "cd"; the chain "a", "ab", "abc"). -/
theorem C1_reconcileCumulative_spec_witness :
    reconcileCumulative (chars "ab") (chars "abc") = (chars "c", chars "abc") ∧
    reconcileCumulative (chars "ab") (chars "a") = ([], chars "ab") ∧
    reconcileCumulative (chars "ab") (chars "cd") = (chars "cd", chars "abcd") ∧
    (runCumulativeFrom [] [chars "a", chars "ab", chars "abc"]).1.flatten = chars "abc" := by
  refine ⟨?_, ?_, ?_, ?_⟩
  · exact ((C1_reconcileCumulative_spec (chars "ab") (chars "abc")).1 (by decide)).1
  · exact (C1_reconcileCumulative_spec (chars "ab") (chars "a")).2.1 (by decide) (by decide)
  · exact (C1_reconcileCumulative_spec (chars "ab") (chars "cd")).2.2.1 (by decide) (by decide)
  · exact (C1_reconcileCumulative_spec [] []).2.2.2
      [chars "a", chars "ab", chars "abc"] (by decide) (by decide)

theorem getAssoc_append {κ α : Type} [DecidableEq κ] (m l : List (κ × α)) (k : κ) :
    getAssoc (m ++ l) k = match getAssoc m k with
      | some v => some v
      | none => getAssoc l k := by
  induction m with
  | nil => simp [getAssoc]
  | cons p rest ih =>
    obtain ⟨pk, pv⟩ := p
    by_cases h : pk = k
    · simp [getAssoc, h]
    · simp [getAssoc, h, ih]

/-- Evaluation rule for the key predicate on a tool-call event. -/
theorem isToolCallWithKey_toolCall (k id name : List Char) (args : Json) :
    Event.isToolCallWithKey k (.toolCall id name args)
      = decide (geminiToolCallKey name args = k) := rfl

/-- The key predicate ignores text deltas. -/
theorem isToolCallWithKey_textDelta (k s : List Char) :
    Event.isToolCallWithKey k (.textDelta s) = false := rfl

/-- One Gemini function-call step, counted per deduplication key: the
number of tool calls emitted for key `k` plus the 0/1 indicator of `k`
being known before equals the 0/1 indicator of `k` being known after. -/
theorem geminiStep_count (freshId : Nat → List Char) (st : GeminiToolState)
    (fc : GeminiFnPart) (k : List Char) :
    (geminiProcessFunctionCall freshId st fc).2.countP (Event.isToolCallWithKey k)
        + (if (getAssoc st.toolCallKeyToId k).isSome then 1 else 0)
      = (if (getAssoc (geminiProcessFunctionCall freshId st fc).1.toolCallKeyToId k).isSome
          then 1 else 0) := by
  unfold geminiProcessFunctionCall
  by_cases hn : fc.validName = []
  · simp [hn]
  · simp only [hn, if_false]
    rcases hga : getAssoc st.toolCallKeyToId
        (geminiToolCallKey fc.validName fc.argsObj) with _ | id
    · by_cases hk : geminiToolCallKey fc.validName fc.argsObj = k
      · subst hk
        cases hhc : (!st.emittedBeginToolCallsHint && st.hasEmittedAssistantText) <;>
          simp [hga, hhc, List.countP_cons, isToolCallWithKey_toolCall,
            isToolCallWithKey_textDelta, getAssoc_append, getAssoc]
      · cases hmk : getAssoc st.toolCallKeyToId k <;>
          cases hhc : (!st.emittedBeginToolCallsHint && st.hasEmittedAssistantText) <;>
            simp [hga, hmk, hhc, List.countP_cons, isToolCallWithKey_toolCall,
              isToolCallWithKey_textDelta, getAssoc_append, getAssoc, hk]
    · simp [hga]

/-- Folding the step over a whole response keeps the same per-key count
equation. -/
theorem geminiRun_count (freshId : Nat → List Char) (parts : List GeminiFnPart) :
    ∀ (st : GeminiToolState) (k : List Char),
      (geminiProcessFnParts freshId st parts).2.countP (Event.isToolCallWithKey k)
          + (if (getAssoc st.toolCallKeyToId k).isSome then 1 else 0)
        = (if (getAssoc (geminiProcessFnParts freshId st parts).1.toolCallKeyToId k).isSome
            then 1 else 0) := by
  induction parts with
  | nil => intro st k; simp [geminiProcessFnParts]
  | cons p ps ih =>
    intro st k
    simp only [geminiProcessFnParts, List.countP_append]
    have h1 := geminiStep_count freshId st p k
    have h2 := ih (geminiProcessFunctionCall freshId st p).1 k
    omega

/-- A Gemini function-call step either leaves the state unchanged and emits
nothing, or advances the id counter by one and emits a tool call carrying
the fresh id. -/
theorem geminiStep_shape (freshId : Nat → List Char) (st : GeminiToolState)
    (fc : GeminiFnPart) :
    geminiProcessFunctionCall freshId st fc = (st, []) ∨
    ((geminiProcessFunctionCall freshId st fc).1.nextId = st.nextId + 1 ∧
     toolCallIds (geminiProcessFunctionCall freshId st fc).2 = [freshId st.nextId]) := by
  unfold geminiProcessFunctionCall
  by_cases hn : fc.validName = []
  · simp [hn]
  · simp only [hn, if_false]
    rcases hga : getAssoc st.toolCallKeyToId
        (geminiToolCallKey fc.validName fc.argsObj) with _ | id
    · right
      cases hhc : (!st.emittedBeginToolCallsHint && st.hasEmittedAssistantText) <;>
        simp [hga, hhc, toolCallIds]
    · left; simp [hga]

/-- Over a whole response, the emitted tool-call ids are exactly the
fresh-id supply applied to an initial segment of counters. -/
theorem geminiRun_ids (freshId : Nat → List Char) (parts : List GeminiFnPart) :
    ∀ st : GeminiToolState,
      ∃ n, (geminiProcessFnParts freshId st parts).1.nextId = st.nextId + n ∧
        toolCallIds (geminiProcessFnParts freshId st parts).2
          = (List.range' st.nextId n).map freshId := by
  induction parts with
  | nil => intro st; exact ⟨0, by simp [geminiProcessFnParts, toolCallIds]⟩
  | cons p ps ih =>
    intro st
    rcases geminiStep_shape freshId st p with h | ⟨hn1, hids1⟩
    · obtain ⟨n, hn, hids⟩ := ih st
      refine ⟨n, ?_, ?_⟩
      · simpa [geminiProcessFnParts, h] using hn
      · simpa [geminiProcessFnParts, h, toolCallIds] using hids
    · obtain ⟨m, hm, hids2⟩ := ih (geminiProcessFunctionCall freshId st p).1
      refine ⟨m + 1, ?_, ?_⟩
      · simp only [geminiProcessFnParts]; omega
      · simp only [geminiProcessFnParts, toolCallIds, List.filterMap_append]
        have : (List.range' st.nextId (m + 1)).map freshId
            = freshId st.nextId :: (List.range' (st.nextId + 1) m).map freshId := by
          rw [List.range'_succ st.nextId m 1]; simp
        rw [this]
        rw [show (geminiProcessFnParts freshId (geminiProcessFunctionCall freshId st p).1
          ps).2.filterMap _ = toolCallIds (geminiProcessFnParts freshId
            (geminiProcessFunctionCall freshId st p).1 ps).2 from rfl]
        rw [show (geminiProcessFunctionCall freshId st p).2.filterMap _
          = toolCallIds (geminiProcessFunctionCall freshId st p).2 from rfl]
        rw [hids1, hids2, hn1]
        simp

/-- C10.  Gemini tool-call deduplication by content key: within one
streamed response, function-call parts are keyed by name plus the
serialization of the argument object; a part whose key is already known
emits nothing and leaves the state unchanged; a part with a fresh key
emits exactly one canonical tool call (carrying the freshly generated id)
and records the key; over a whole response each key is emitted at most
once, and with an injective fresh-id supply all emitted ids are pairwise
distinct. -/
theorem C10_gemini_toolcall_dedup :
    (∀ (freshId : Nat → List Char) (st : GeminiToolState) (fc : GeminiFnPart)
        (id : List Char),
      fc.validName ≠ [] →
      getAssoc st.toolCallKeyToId (geminiToolCallKey fc.validName fc.argsObj) = some id →
      geminiProcessFunctionCall freshId st fc = (st, [])) ∧
    (∀ (freshId : Nat → List Char) (st : GeminiToolState) (fc : GeminiFnPart),
      fc.validName ≠ [] →
      getAssoc st.toolCallKeyToId (geminiToolCallKey fc.validName fc.argsObj) = none →
      (geminiProcessFunctionCall freshId st fc).2.countP Event.isToolCall = 1 ∧
      getAssoc (geminiProcessFunctionCall freshId st fc).1.toolCallKeyToId
        (geminiToolCallKey fc.validName fc.argsObj) = some (freshId st.nextId)) ∧
    (∀ (freshId : Nat → List Char) (parts : List GeminiFnPart) (k : List Char),
      (geminiProcessFnParts freshId .init parts).2.countP (Event.isToolCallWithKey k) ≤ 1) ∧
    (∀ (freshId : Nat → List Char) (parts : List GeminiFnPart),
      Function.Injective freshId →
      (toolCallIds (geminiProcessFnParts freshId .init parts).2).Nodup) := by
  refine ⟨?_, ?_, ?_, ?_⟩
  · intro freshId st fc id hn hga
    unfold geminiProcessFunctionCall
    simp [hn, hga]
  · intro freshId st fc hn hga
    unfold geminiProcessFunctionCall
    cases hhc : (!st.emittedBeginToolCallsHint && st.hasEmittedAssistantText) <;>
      simp [hn, hga, hhc, List.countP_cons, Event.isToolCall,
        getAssoc_append, getAssoc, isToolCallWithKey_toolCall]
  · intro freshId parts k
    have h := geminiRun_count freshId parts .init k
    rw [show getAssoc GeminiToolState.init.toolCallKeyToId k = none from rfl] at h
    simp only [Option.isSome_none, Bool.false_eq_true, if_false] at h
    split at h <;> omega
  · intro freshId parts hinj
    obtain ⟨n, _, hids⟩ := geminiRun_ids freshId parts .init
    rw [hids]
    exact (List.nodup_range' ..).map (fun a b h => hinj h)

/-- Witness for C10: two identical function-call parts (name "f", argument
object with a=1) collapse into exactly one emission; the dedup-key count
for the emitted key is one; ids are unique under an injective supply. -/
theorem C10_gemini_toolcall_dedup_witness :
    (geminiProcessFnParts (fun n => List.replicate n 'x') .init
        [⟨.str (chars "f"), .obj [(chars "a", .num 1)]⟩,
         ⟨.str (chars "f"), .obj [(chars "a", .num 1)]⟩]).2.countP
      (Event.isToolCallWithKey
        (geminiToolCallKey (chars "f") (.obj [(chars "a", .num 1)]))) ≤ 1 ∧
    (geminiProcessFunctionCall (fun n => List.replicate n 'x') .init
        ⟨.str (chars "f"), .obj [(chars "a", .num 1)]⟩).2.countP Event.isToolCall = 1 ∧
    (toolCallIds (geminiProcessFnParts (fun n => List.replicate n 'x') .init
        [⟨.str (chars "f"), .obj [(chars "a", .num 1)]⟩,
         ⟨.str (chars "f"), .obj [(chars "b", .num 2)]⟩]).2).Nodup := by
  refine ⟨?_, ?_, ?_⟩
  · exact C10_gemini_toolcall_dedup.2.2.1 _ _ _
  · exact (C10_gemini_toolcall_dedup.2.1 (fun n => List.replicate n 'x') .init
      ⟨.str (chars "f"), .obj [(chars "a", .num 1)]⟩ (by decide) rfl).1
  · exact C10_gemini_toolcall_dedup.2.2.2 _ _
      (fun a b h => by simpa using congrArg List.length h)

/-- C7 counterexample: the claim says the JSON Schema with
`type: [string, null]` converts to a schema whose `type` is `STRING` (with
`nullable: true`).  On the source, the non-null variant is wrapped in a
single-element `anyOf`; the converted schema has no `type` key at all,
`anyOf` containing the uppercased variant, and `nullable: true`. -/
theorem C7_counterexample :
    (jsonSchemaToGeminiSchema
        (.obj [(chars "type", .arr [.str (chars "string"), .str (chars "null")])])).getProp
      (chars "type") = .undef ∧
    (jsonSchemaToGeminiSchema
        (.obj [(chars "type", .arr [.str (chars "string"), .str (chars "null")])])).getProp
      (chars "anyOf") = .arr [.obj [(chars "type", .str (chars "STRING"))]] ∧
    (jsonSchemaToGeminiSchema
        (.obj [(chars "type", .arr [.str (chars "string"), .str (chars "null")])])).getProp
      (chars "nullable") = .bool true := by
  refine ⟨rfl, rfl, rfl⟩

/-- C7 (amended).  Gemini schema conversion: `jsonSchemaToGeminiSchema`
converts the JSON Schema with `type: [string, null]` to the schema with
`anyOf: [(type: STRING)]` and `nullable: true` (the null union member
becomes the `nullable` flag and the non-null variant, its type string
uppercased, is wrapped in a single-element `anyOf` rather than inlined);
and for every integer bound, a schema with `exclusiveMinimum: n` converts
to one with `minimum: n`, and `exclusiveMaximum: n` to `maximum: n`
(exclusive bounds degrade to the inclusive fields). -/
theorem C7_jsonSchemaToGeminiSchema_spec :
    jsonSchemaToGeminiSchema
        (.obj [(chars "type", .arr [.str (chars "string"), .str (chars "null")])])
      = .obj [(chars "anyOf", .arr [.obj [(chars "type", .str (chars "STRING"))]]),
              (chars "nullable", .bool true)] ∧
    (∀ n : Int, jsonSchemaToGeminiSchema (.obj [(chars "exclusiveMinimum", .num n)])
      = .obj [(chars "minimum", .num n)]) ∧
    (∀ n : Int, jsonSchemaToGeminiSchema (.obj [(chars "exclusiveMaximum", .num n)])
      = .obj [(chars "maximum", .num n)]) :=
  ⟨rfl, fun _ => rfl, fun _ => rfl⟩

theorem contains_iff_mem (l : List Nat) (x : Nat) : l.contains x = true ↔ x ∈ l := by
  simp

theorem CompletionStep.rfl {st : StreamToolState} : CompletionStep st st [] :=
  ⟨by simp, List.prefix_refl _, id⟩

theorem CompletionStep.comp {a b c : StreamToolState} {evs1 evs2 : List Event} :
    CompletionStep a b evs1 → CompletionStep b c evs2 →
    CompletionStep a c (evs1 ++ evs2) := by
  intro h1 h2
  refine ⟨?_, h1.2.1.trans h2.2.1, fun h => h2.2.2 (h1.2.2 h)⟩
  rw [List.countP_append]
  have := h1.1
  have := h2.1
  omega

/-- `tryEmitBufferedToolCall` satisfies the completion conservation. -/
theorem tryEmit_step (st : StreamToolState) (idx : Nat) :
    CompletionStep st (tryEmitBufferedToolCall st idx).1
      (tryEmitBufferedToolCall st idx).2 := by
  unfold tryEmitBufferedToolCall
  rcases hb : getAssoc st.toolCallBuffers idx with _ | buf
  · exact CompletionStep.rfl
  · simp only []
    by_cases hc : st.completedToolCallIndices.contains idx = true
    · simp only [hc, if_true]
      exact CompletionStep.rfl
    · simp only [hc, if_false, Bool.false_eq_true]
      rcases hp : tryParseJSONObject buf.args with _ | fs
      · exact CompletionStep.rfl
      · have hmem : idx ∉ st.completedToolCallIndices := by
          intro h
          exact hc ((contains_iff_mem _ _).mpr h)
        refine ⟨?_, List.prefix_append _ _, fun h => ?_⟩
        · simp [List.countP_cons, Event.isToolCall]
          omega
        · simp [List.nodup_append, h, hmem]

/-- The per-entry loop body satisfies the conservation (the buffer
mutation leaves the completed set untouched). -/
theorem openaiEntry_step (st : StreamToolState) (tc : ToolCallDeltaEntry) :
    CompletionStep st (openaiProcessToolCallEntry st tc).1
      (openaiProcessToolCallEntry st tc).2 := by
  unfold openaiProcessToolCallEntry
  by_cases hc : st.completedToolCallIndices.contains (tc.index.getD 0) = true
  · simp only [hc, if_true]
    exact CompletionStep.rfl
  · simp only [hc, if_false, Bool.false_eq_true]
    exact tryEmit_step _ _

/-- The whole `tool_calls` loop satisfies the conservation. -/
theorem openaiEntries_step (tcs : List ToolCallDeltaEntry) :
    ∀ st : StreamToolState,
      CompletionStep st (openaiProcessToolCallEntries st tcs).1
        (openaiProcessToolCallEntries st tcs).2 := by
  induction tcs with
  | nil => intro st; exact CompletionStep.rfl
  | cons tc tcs ih =>
    intro st
    exact (openaiEntry_step st tc).comp (ih _)

/-- The flush sweep, when it succeeds, satisfies the conservation on the
completed list it returns. -/
theorem flushBuffers_ok (throw : Bool) (bufs : List (Nat × ToolCallBuffer)) :
    ∀ completed c evs, flushBuffers throw completed bufs = .ok (c, evs) →
      evs.countP Event.isToolCall + completed.length = c.length ∧
      completed <+: c ∧ (completed.Nodup → c.Nodup) := by
  induction bufs with
  | nil =>
    intro completed c evs h
    simp only [flushBuffers, Except.ok.injEq, Prod.mk.injEq] at h
    obtain ⟨h1, h2⟩ := h
    subst h1; subst h2
    exact ⟨by simp, List.prefix_refl _, id⟩
  | cons p rest ih =>
    obtain ⟨idx, buf⟩ := p
    intro completed c evs h
    simp only [flushBuffers] at h
    by_cases hc : completed.contains idx = true
    · rw [if_pos hc] at h
      exact ih completed c evs h
    · rw [if_neg hc] at h
      rcases hp : tryParseJSONObject buf.args with _ | fs
      · rw [hp] at h
        by_cases hthrow : throw = true
        · rw [if_pos hthrow] at h
          simp at h
        · rw [if_neg hthrow] at h
          exact ih completed c evs h
      · rw [hp] at h
        rcases hrec : flushBuffers throw (completed ++ [idx]) rest with e | q
        · rw [hrec] at h; simp at h
        · obtain ⟨c2, evs2⟩ := q
          rw [hrec] at h
          simp only [Except.ok.injEq, Prod.mk.injEq] at h
          obtain ⟨h1, h2⟩ := h
          subst h1; subst h2
          obtain ⟨g1, g2, g3⟩ := ih (completed ++ [idx]) c2 evs2 hrec
          have hmem : idx ∉ completed := fun hm => hc ((contains_iff_mem _ _).mpr hm)
          refine ⟨?_, ?_, fun hnd => ?_⟩
          · have heval : Event.isToolCall
                (Event.toolCall (buf.id.getD []) (buf.name.getD []) (.obj fs)) = true := rfl
            rw [List.countP_cons, heval]
            simp only [List.length_append, List.length_singleton] at g1
            simp only [if_true]
            omega
          · exact (List.prefix_append completed [idx]).trans g2
          · exact g3 (by simp [List.nodup_append, hnd, hmem])

/-- A lenient flush sweep never fails. -/
theorem flushBuffers_lenient_total (bufs : List (Nat × ToolCallBuffer)) :
    ∀ completed, ∃ p, flushBuffers false completed bufs = .ok p := by
  induction bufs with
  | nil => intro completed; exact ⟨(completed, []), Eq.refl _⟩
  | cons p rest ih =>
    obtain ⟨idx, buf⟩ := p
    intro completed
    simp only [flushBuffers]
    by_cases hc : completed.contains idx = true
    · rw [if_pos hc]; exact ih completed
    · rw [if_neg hc]
      rcases hp : tryParseJSONObject buf.args with _ | fs
      · simpa using ih completed
      · obtain ⟨⟨c2, evs2⟩, hrec⟩ := ih (completed ++ [idx])
        rw [hrec]
        exact ⟨_, Eq.refl _⟩

/-- A strict flush sweep fails exactly when some buffered entry whose
index is not yet completed has unparseable arguments (stated for the
well-formed states the decoder produces: buffer keys are distinct and
disjoint from the completed set). -/
theorem flushBuffers_strict_error_iff (bufs : List (Nat × ToolCallBuffer)) :
    ∀ completed, (bufs.map Prod.fst).Nodup →
      (∀ k ∈ bufs.map Prod.fst, k ∉ completed) →
      ((∃ e, flushBuffers true completed bufs = .error e) ↔
        ∃ p ∈ bufs, tryParseJSONObject p.2.args = none) := by
  induction bufs with
  | nil =>
    intro completed _ _
    constructor
    · rintro ⟨e, he⟩; simp [flushBuffers] at he
    · rintro ⟨p, hp, _⟩; simp at hp
  | cons q rest ih =>
    obtain ⟨idx, buf⟩ := q
    intro completed hnd hdisj
    have hidx : idx ∉ completed := hdisj idx (by simp)
    have hc : ¬ completed.contains idx = true := fun hcc =>
      hidx ((contains_iff_mem _ _).mp hcc)
    simp only [flushBuffers, if_neg hc]
    rcases hp : tryParseJSONObject buf.args with _ | fs
    · simp only [if_true]
      constructor
      · intro _; exact ⟨(idx, buf), by simp, hp⟩
      · intro _; exact ⟨_, Eq.refl _⟩
    · have hnd' : (rest.map Prod.fst).Nodup := (List.nodup_cons.mp hnd).2
      have hdisj' : ∀ k ∈ rest.map Prod.fst, k ∉ completed ++ [idx] := by
        intro k hk
        simp only [List.mem_append, List.mem_singleton]
        rintro (hk1 | hk2)
        · exact hdisj k (by simp [hk]) hk1
        · subst hk2
          exact (List.nodup_cons.mp hnd).1 hk
      have hih := ih (completed ++ [idx]) hnd' hdisj'
      constructor
      · rintro ⟨e, he⟩
        rcases hrec : flushBuffers true (completed ++ [idx]) rest with e2 | q2
        · obtain ⟨p, hpm, hpe⟩ := hih.mp ⟨e2, hrec⟩
          exact ⟨p, by simp [hpm], hpe⟩
        · rw [hrec] at he
          obtain ⟨c2, evs2⟩ := q2
          simp at he
      · rintro ⟨p, hpm, hpe⟩
        rcases List.mem_cons.mp hpm with hp1 | hp2
        · subst hp1
          rw [hp] at hpe
          simp at hpe
        · obtain ⟨e2, hrec⟩ := hih.mpr ⟨p, hp2, hpe⟩
          rw [hrec]
          exact ⟨e2, Eq.refl _⟩

/-- `processDelta`, when it succeeds, satisfies the conservation. -/
theorem processDelta_ok (st : StreamToolState) (d : ChatChoiceDelta)
    (st' : StreamToolState) (evs : List Event)
    (h : processDelta st d = .ok (st', evs)) : CompletionStep st st' evs := by
  unfold processDelta at h
  set stepped := (match d.toolCalls with
    | none => (st, ([] : List Event))
    | some tcs =>
      let hinted :=
        if ¬ st.emittedBeginToolCallsHint ∧ st.hasEmittedAssistantText ∧ ¬ tcs.isEmpty then
          ({ st with emittedBeginToolCallsHint := true }, [Event.textDelta [' ']])
        else (st, [])
      let looped := openaiProcessToolCallEntries hinted.1 tcs
      (looped.1, hinted.2 ++ looped.2)) with hstepped
  have hstep : CompletionStep st stepped.1 stepped.2 := by
    rw [hstepped]
    rcases d.toolCalls with _ | tcs
    · exact CompletionStep.rfl
    · simp only []
      by_cases hh :
          ¬ st.emittedBeginToolCallsHint ∧ st.hasEmittedAssistantText ∧ ¬ tcs.isEmpty
      · rw [if_pos hh]
        refine CompletionStep.comp (b := { st with emittedBeginToolCallsHint := true })
          ⟨by simp [Event.isToolCall], List.prefix_refl _, id⟩ ?_
        exact openaiEntries_step tcs _
      · rw [if_neg hh]
        simpa using openaiEntries_step tcs st
  by_cases hfin : d.finishReason = some (chars "tool_calls") ∨
      d.finishReason = some (chars "stop")
  · rw [if_pos hfin] at h
    rcases hfl : flushToolCallBuffers stepped.1 true with e | q
    · rw [hfl] at h; simp at h
    · obtain ⟨st2, evs2⟩ := q
      rw [hfl] at h
      simp only [Except.ok.injEq, Prod.mk.injEq] at h
      obtain ⟨h1, h2⟩ := h
      subst h1; subst h2
      refine hstep.comp ?_
      unfold flushToolCallBuffers at hfl
      rcases hfb : flushBuffers true stepped.1.completedToolCallIndices
          stepped.1.toolCallBuffers with e | q2
      · rw [hfb] at hfl; simp at hfl
      · obtain ⟨c2, evs3⟩ := q2
        rw [hfb] at hfl
        simp only [Except.ok.injEq, Prod.mk.injEq] at hfl
        obtain ⟨g1, g2⟩ := hfl
        obtain ⟨k1, k2, k3⟩ := flushBuffers_ok true _ _ _ _ hfb
        subst g2
        refine ⟨?_, ?_, ?_⟩
        · rw [← g1]; exact k1
        · rw [← g1]; exact k2
        · rw [← g1]; exact k3
  · rw [if_neg hfin] at h
    simp only [Except.ok.injEq, Prod.mk.injEq] at h
    obtain ⟨h1, h2⟩ := h
    subst h1; subst h2
    exact hstep

/-- Running a sequence of chat chunks satisfies the conservation. -/
theorem runChatDeltas_ok (ds : List ChatChoiceDelta) :
    ∀ (st st' : StreamToolState) (evs : List Event),
      runChatDeltas st ds = .ok (st', evs) → CompletionStep st st' evs := by
  induction ds with
  | nil =>
    intro st st' evs h
    simp only [runChatDeltas, Except.ok.injEq, Prod.mk.injEq] at h
    obtain ⟨h1, h2⟩ := h
    subst h1; subst h2
    exact CompletionStep.rfl
  | cons d ds ih =>
    intro st st' evs h
    simp only [runChatDeltas] at h
    rcases h1 : processDelta st d with e | q
    · rw [h1] at h; simp at h
    · obtain ⟨st1, evs1⟩ := q
      rw [h1] at h
      dsimp only [] at h
      rcases h2 : runChatDeltas st1 ds with e | q2
      · rw [h2] at h; simp at h
      · obtain ⟨st2, evs2⟩ := q2
        rw [h2] at h
        dsimp only [] at h
        simp only [Except.ok.injEq, Prod.mk.injEq] at h
        obtain ⟨g1, g2⟩ := h
        subst g1; subst g2
        exact (processDelta_ok st d st1 evs1 h1).comp (ih st1 st2 evs2 h2)

/-- C2.  Tool-call buffering emits each call exactly once: once a stream
index is in the completed set, any further chat delta for it is ignored
outright and any further Responses argument event for it succeeds without
emitting a ToolCall or changing the completed set; over any run of chat
chunks the number of emitted ToolCalls equals the growth of the
append-only, duplicate-free completed set (so each index emits at most
once, at the moment it completes); and the fragments of an object split
as left-brace `"a":` then `1` right-brace across two deltas yield exactly
one ToolCall with arguments a=1, a third delta repeating the full
argument string emitting nothing more. -/
theorem C2_toolcall_buffering_once :
    (∀ (st : StreamToolState) (tc : ToolCallDeltaEntry),
      (tc.index.getD 0) ∈ st.completedToolCallIndices →
      openaiProcessToolCallEntry st tc = (st, [])) ∧
    (∀ (st : StreamToolState) (ev : ResponsesFnArgsEvent),
      (ev.outputIndex.getD 0) ∈ st.completedToolCallIndices →
      ∃ st' evs, responsesProcessFnArgsEvent st ev = .ok (st', evs) ∧
        evs.countP Event.isToolCall = 0 ∧
        st'.completedToolCallIndices = st.completedToolCallIndices) ∧
    (∀ (st st' : StreamToolState) (ds : List ChatChoiceDelta) (evs : List Event),
      runChatDeltas st ds = .ok (st', evs) →
      evs.countP Event.isToolCall + st.completedToolCallIndices.length
          = st'.completedToolCallIndices.length ∧
      st.completedToolCallIndices <+: st'.completedToolCallIndices ∧
      (st.completedToolCallIndices.Nodup → st'.completedToolCallIndices.Nodup)) ∧
    (runChatDeltas .init
        [⟨some [⟨some 0, some (chars "id1"), some (chars "fn"),
            some (chars "\x7b\"a\":")⟩], none⟩,
         ⟨some [⟨some 0, none, none, some (chars "1\x7d")⟩], none⟩,
         ⟨some [⟨some 0, none, none, some (chars "\x7b\"a\":1\x7d")⟩], none⟩]
      = .ok ({ toolCallBuffers := [], completedToolCallIndices := [0],
               hasEmittedAssistantText := false, emittedBeginToolCallsHint := false },
             [Event.toolCall (chars "id1") (chars "fn") (.obj [(chars "a", .num 1)])])) := by
  refine ⟨?_, ?_, ?_, rfl⟩
  · intro st tc hmem
    unfold openaiProcessToolCallEntry
    rw [if_pos ((contains_iff_mem _ _).mpr hmem)]
  · intro st ev hmem
    unfold responsesProcessFnArgsEvent
    by_cases hh : ¬ st.emittedBeginToolCallsHint ∧ st.hasEmittedAssistantText
    · rw [if_pos hh]
      simp only []
      rw [if_pos ((contains_iff_mem _ _).mpr hmem)]
      exact ⟨_, _, Eq.refl _, by simp [Event.isToolCall], Eq.refl _⟩
    · rw [if_neg hh]
      simp only []
      rw [if_pos ((contains_iff_mem _ _).mpr hmem)]
      exact ⟨_, _, Eq.refl _, by simp, Eq.refl _⟩
  · intro st st' ds evs h
    exact runChatDeltas_ok ds st st' evs h

/-- Witness for C2: a duplicate chat delta for a completed index is
ignored; a duplicate Responses done-event for a completed index emits no
ToolCall; the conservation holds on the concrete two-fragment run. -/
theorem C2_toolcall_buffering_once_witness :
    openaiProcessToolCallEntry
        { toolCallBuffers := [], completedToolCallIndices := [0],
          hasEmittedAssistantText := false, emittedBeginToolCallsHint := false }
        ⟨some 0, none, none, some (chars "\x7b\"a\":1\x7d")⟩
      = ({ toolCallBuffers := [], completedToolCallIndices := [0],
           hasEmittedAssistantText := false, emittedBeginToolCallsHint := false }, []) ∧
    (∃ st' evs, responsesProcessFnArgsEvent
        { toolCallBuffers := [], completedToolCallIndices := [0],
          hasEmittedAssistantText := false, emittedBeginToolCallsHint := false }
        ⟨true, some 0, some (chars "c1"), some (chars "fn"),
          chars "\x7b\"a\":1\x7d"⟩ = .ok (st', evs) ∧
      evs.countP Event.isToolCall = 0 ∧
      st'.completedToolCallIndices = [0]) ∧
    (∃ st' evs, runChatDeltas .init
        [⟨some [⟨some 0, some (chars "id1"), some (chars "fn"),
            some (chars "\x7b\"a\":")⟩], none⟩,
         ⟨some [⟨some 0, none, none, some (chars "1\x7d")⟩], none⟩]
        = .ok (st', evs) ∧
      evs.countP Event.isToolCall + 0 = st'.completedToolCallIndices.length) := by
  refine ⟨?_, ?_, ?_⟩
  · exact C2_toolcall_buffering_once.1 _ _ (by decide)
  · exact C2_toolcall_buffering_once.2.1 _ _ (by decide)
  · refine ⟨_, _, Eq.refl _, ?_⟩
    have h := C2_toolcall_buffering_once.2.2.1 .init _
      [⟨some [⟨some 0, some (chars "id1"), some (chars "fn"),
          some (chars "\x7b\"a\":")⟩], none⟩,
       ⟨some [⟨some 0, none, none, some (chars "1\x7d")⟩], none⟩] _ (Eq.refl _)
    simpa using h.1

/-- C3.  Flush dichotomy: the lenient flush (and hence the flush triggered
by the benign `data: [DONE]` sentinel line) never raises an error and
leaves the buffer map empty (incomplete buffers silently dropped), whereas
the strict flush raises a hard decode error exactly when some buffered,
not-yet-completed index holds an argument string that is not valid JSON —
in particular an explicit `finish_reason` of `tool_calls` or `stop` aborts
the stream in that situation.  (The well-formedness hypotheses — distinct
buffered indices, disjoint from the completed set — hold in every state
the decoder produces, since completion deletes the buffer.) -/
theorem C3_flush_dichotomy :
    (∀ st : StreamToolState,
      ∃ p, flushToolCallBuffers st false = .ok p ∧ p.1.toolCallBuffers = []) ∧
    (∀ (parseData : List Char → Option ChatChoiceDelta) (st : StreamToolState),
      ∃ p, processSseLine parseData st (chars "data: [DONE]") = .ok p ∧
        p.1.toolCallBuffers = []) ∧
    (∀ st : StreamToolState,
      (st.toolCallBuffers.map Prod.fst).Nodup →
      (∀ k ∈ st.toolCallBuffers.map Prod.fst, k ∉ st.completedToolCallIndices) →
      ((∃ e, flushToolCallBuffers st true = .error e) ↔
        ∃ p ∈ st.toolCallBuffers, tryParseJSONObject p.2.args = none)) ∧
    (∀ (st : StreamToolState) (fin : List Char),
      (fin = chars "tool_calls" ∨ fin = chars "stop") →
      (st.toolCallBuffers.map Prod.fst).Nodup →
      (∀ k ∈ st.toolCallBuffers.map Prod.fst, k ∉ st.completedToolCallIndices) →
      (∃ p ∈ st.toolCallBuffers, tryParseJSONObject p.2.args = none) →
      ∃ e, processDelta st ⟨none, some fin⟩ = .error e) := by
  have lenient : ∀ st : StreamToolState,
      ∃ p, flushToolCallBuffers st false = .ok p ∧ p.1.toolCallBuffers = [] := by
    intro st
    obtain ⟨⟨c, evs⟩, hp⟩ :=
      flushBuffers_lenient_total st.toolCallBuffers st.completedToolCallIndices
    refine ⟨({ st with toolCallBuffers := [], completedToolCallIndices := c }, evs), ?_, rfl⟩
    unfold flushToolCallBuffers
    rw [hp]
  have strict : ∀ st : StreamToolState,
      (st.toolCallBuffers.map Prod.fst).Nodup →
      (∀ k ∈ st.toolCallBuffers.map Prod.fst, k ∉ st.completedToolCallIndices) →
      ((∃ e, flushToolCallBuffers st true = .error e) ↔
        ∃ p ∈ st.toolCallBuffers, tryParseJSONObject p.2.args = none) := by
    intro st hnd hdisj
    have hiff := flushBuffers_strict_error_iff st.toolCallBuffers
      st.completedToolCallIndices hnd hdisj
    unfold flushToolCallBuffers
    rcases hfb : flushBuffers true st.completedToolCallIndices st.toolCallBuffers
        with e | q
    · simp only [hfb]
      constructor
      · intro _; exact hiff.mp ⟨e, hfb⟩
      · intro _; exact ⟨e, Eq.refl _⟩
    · obtain ⟨c, evs⟩ := q
      simp only [hfb]
      constructor
      · rintro ⟨e, he⟩; simp at he
      · intro hex
        obtain ⟨e, he⟩ := hiff.mpr hex
        rw [he] at hfb
        simp at hfb
  refine ⟨lenient, ?_, strict, ?_⟩
  · intro parseData st
    have hline : processSseLine parseData st (chars "data: [DONE]")
        = flushToolCallBuffers st false := rfl
    rw [hline]
    exact lenient st
  · intro st fin hfin hnd hdisj hex
    obtain ⟨e, he⟩ := (strict st hnd hdisj).mpr hex
    refine ⟨e, ?_⟩
    unfold processDelta
    have hcond : (some fin = some (chars "tool_calls") ∨
        some fin = some (chars "stop")) := by
      rcases hfin with h | h
      · exact Or.inl (by rw [h])
      · exact Or.inr (by rw [h])
    rw [if_pos hcond]
    simp only []
    rw [he]

/-- Witness for C3: on a state holding one incomplete buffer (index 0,
argument fragment that is not complete JSON), the lenient flush and the
`data: [DONE]` line succeed and drop the buffer, while the strict flush
and an explicit `finish_reason: stop` chunk raise the decode error. -/
theorem C3_flush_dichotomy_witness :
    (∃ p, flushToolCallBuffers
        { toolCallBuffers := [(0, ⟨none, none, chars "\x7b\"a\":"⟩)],
          completedToolCallIndices := [], hasEmittedAssistantText := false,
          emittedBeginToolCallsHint := false } false = .ok p ∧
      p.1.toolCallBuffers = []) ∧
    (∃ p, processSseLine (fun _ => none)
        { toolCallBuffers := [(0, ⟨none, none, chars "\x7b\"a\":"⟩)],
          completedToolCallIndices := [], hasEmittedAssistantText := false,
          emittedBeginToolCallsHint := false } (chars "data: [DONE]") = .ok p ∧
      p.1.toolCallBuffers = []) ∧
    (∃ e, flushToolCallBuffers
        { toolCallBuffers := [(0, ⟨none, none, chars "\x7b\"a\":"⟩)],
          completedToolCallIndices := [], hasEmittedAssistantText := false,
          emittedBeginToolCallsHint := false } true = .error e) ∧
    (∃ e, processDelta
        { toolCallBuffers := [(0, ⟨none, none, chars "\x7b\"a\":"⟩)],
          completedToolCallIndices := [], hasEmittedAssistantText := false,
          emittedBeginToolCallsHint := false } ⟨none, some (chars "stop")⟩
      = .error e) := by
  refine ⟨C3_flush_dichotomy.1 _, C3_flush_dichotomy.2.1 _ _, ?_, ?_⟩
  · refine (C3_flush_dichotomy.2.2.1 _ (by decide) (by decide)).mpr ?_
    exact ⟨(0, ⟨none, none, chars "\x7b\"a\":"⟩), List.mem_singleton.mpr rfl, rfl⟩
  · refine C3_flush_dichotomy.2.2.2 _ _ (Or.inr rfl) (by decide) (by decide) ?_
    exact ⟨(0, ⟨none, none, chars "\x7b\"a\":"⟩), List.mem_singleton.mpr rfl, rfl⟩

/-- The scanner's hold split loses nothing: emitted part plus held part
reassemble the scanned text, and the held part is always a prefix of the
tag being scanned for. -/
theorem splitHold_spec (pat : List Char) :
    ∀ s : List Char, (splitHold pat s).1 ++ (splitHold pat s).2 = s ∧
      ((splitHold pat s).2).isPrefixOf pat = true := by
  intro s
  induction s with
  | nil => exact ⟨rfl, by simp [splitHold, List.isPrefixOf]⟩
  | cons c rest ih =>
    unfold splitHold
    by_cases h : (c :: rest).isPrefixOf pat = true
    · rw [if_pos h]
      exact ⟨rfl, h⟩
    · rw [if_neg h]
      exact ⟨by simpa using ih.1, ih.2⟩

/-- C8.  Inline-tag reasoning extraction: the two chunks `<think>ab` then
`cd</think>ef` yield ThinkingDelta "ab", ThinkingDelta "cd", ThinkingEnd,
TextDelta "ef"; a partial tag fragment (`<thi`) spanning a chunk boundary
is held in the scan buffer — emitted neither as text nor as thinking and
not discarded (the general hold split loses no characters and holds
exactly a tag prefix), and is replayed correctly when the rest of the tag
arrives. -/
theorem C8_xml_think_extraction :
    (processXmlThinkChunks .init [chars "<think>ab", chars "cd</think>ef"]).2
      = [Event.thinkingDelta (chars "ab"), Event.thinkingDelta (chars "cd"),
         Event.thinkingEnd, Event.textDelta (chars "ef")] ∧
    processXmlThinkChunk .init (chars "<thi") = (⟨false, chars "<thi"⟩, []) ∧
    (processXmlThinkChunks .init [chars "<thi", chars "nk>x</think>y"]).2
      = [Event.thinkingDelta (chars "x"), Event.thinkingEnd,
         Event.textDelta (chars "y")] ∧
    (∀ pat s : List Char, (splitHold pat s).1 ++ (splitHold pat s).2 = s ∧
      ((splitHold pat s).2).isPrefixOf pat = true) :=
  ⟨rfl, rfl, rfl, fun pat s => splitHold_spec pat s⟩

theorem executeWithRetryFrom_le {α : Type} (cfg : RetryConfig)
    (outcome : Nat → Except Nat α) :
    ∀ rem i, (executeWithRetryFrom cfg outcome i rem).2.1 ≤ rem + 1 := by
  intro rem
  induction rem with
  | zero => intro i; simp [executeWithRetryFrom]
  | succ rem ih =>
    intro i
    unfold executeWithRetryFrom
    rcases outcome i with s | v
    · simp only []
      by_cases hc : cfg.enabled = true ∧ s ∈ cfg.retryableStatusCodes
      · rw [if_pos hc]
        have := ih (i + 1)
        simpa using Nat.add_le_add_right this 1
      · rw [if_neg hc]; simp
    · simp

theorem executeWithRetryFrom_persistent {α : Type} (cfg : RetryConfig)
    (outcome : Nat → Except Nat α) (s : Nat)
    (hout : ∀ i, outcome i = .error s) (hen : cfg.enabled = true)
    (hs : s ∈ cfg.retryableStatusCodes) :
    ∀ rem i, executeWithRetryFrom cfg outcome i rem
      = (.error s, rem + 1, List.replicate rem cfg.intervalMs) := by
  intro rem
  induction rem with
  | zero => intro i; simp [executeWithRetryFrom, hout i]
  | succ rem ih =>
    intro i
    unfold executeWithRetryFrom
    rw [hout i]
    simp only []
    rw [if_pos ⟨hen, hs⟩, ih (i + 1)]
    simp [List.replicate_succ]

/-- C4.  Retry bound: (a) the executor makes at most
`max 1 maxAttempts` total attempts; (b) a first attempt failing with a
status that is not retryable (or with retry disabled) is never re-tried:
exactly one attempt, the error surfacing unchanged, no waits; (c) a
persistently failing retryable status with `maxAttempts ≥ 1` is attempted
exactly `maxAttempts` times, the last error surfaces unchanged, and the
executor waits exactly the fixed `intervalMs` before each of the
`maxAttempts - 1` re-attempts (fixed interval, not exponential); the
default configuration retries 429/500/502/503/504 with
`maxAttempts = 3`. -/
theorem C4_executeWithRetry_bound :
    (∀ (α : Type) (cfg : RetryConfig) (outcome : Nat → Except Nat α),
      (executeWithRetry cfg outcome).2.1 ≤ max 1 cfg.maxAttempts) ∧
    (∀ (α : Type) (cfg : RetryConfig) (outcome : Nat → Except Nat α) (s : Nat),
      outcome 0 = .error s →
      (cfg.enabled = false ∨ s ∉ cfg.retryableStatusCodes) →
      executeWithRetry cfg outcome = (.error s, 1, [])) ∧
    (∀ (α : Type) (cfg : RetryConfig) (outcome : Nat → Except Nat α) (s : Nat),
      (∀ i, outcome i = .error s) → cfg.enabled = true →
      s ∈ cfg.retryableStatusCodes → 1 ≤ cfg.maxAttempts →
      executeWithRetry cfg outcome
        = (.error s, cfg.maxAttempts,
           List.replicate (cfg.maxAttempts - 1) cfg.intervalMs)) ∧
    (createRetryConfig []).maxAttempts = 3 ∧
    (createRetryConfig []).retryableStatusCodes = [429, 500, 502, 503, 504] := by
  refine ⟨?_, ?_, ?_, rfl, rfl⟩
  · intro α cfg outcome
    have h := executeWithRetryFrom_le cfg outcome (cfg.maxAttempts - 1) 0
    unfold executeWithRetry
    omega
  · intro α cfg outcome s hout hnc
    unfold executeWithRetry
    rcases hrem : cfg.maxAttempts - 1 with _ | rem
    · simp [executeWithRetryFrom, hout]
    · unfold executeWithRetryFrom
      rw [hout]
      simp only []
      rw [if_neg ?_]
      rintro ⟨h1, h2⟩
      rcases hnc with hn | hn
      · rw [hn] at h1; exact Bool.false_ne_true h1
      · exact hn h2
  · intro α cfg outcome s hout hen hs hmax
    unfold executeWithRetry
    rw [executeWithRetryFrom_persistent cfg outcome s hout hen hs (cfg.maxAttempts - 1) 0]
    have : cfg.maxAttempts - 1 + 1 = cfg.maxAttempts := by omega
    rw [this]

/-- Witness for C4: with the default configuration (`maxAttempts = 3`), a
persistently failing status-500 request is attempted exactly 3 times with
two fixed 1000 ms waits before the error propagates, and a status-400
request is attempted exactly once. -/
theorem C4_executeWithRetry_bound_witness :
    executeWithRetry (α := Unit) (createRetryConfig []) (fun _ => .error 500)
      = (.error 500, 3, [1000, 1000]) ∧
    executeWithRetry (α := Unit) (createRetryConfig []) (fun _ => .error 400)
      = (.error 400, 1, []) ∧
    (executeWithRetry (α := Unit) (createRetryConfig []) (fun _ => .error 500)).2.1
      ≤ max 1 (createRetryConfig []).maxAttempts := by
  refine ⟨?_, ?_, ?_⟩
  · exact C4_executeWithRetry_bound.2.2.1 Unit (createRetryConfig [])
      (fun _ => .error 500) 500 (fun _ => rfl) rfl (by decide) (by decide)
  · exact C4_executeWithRetry_bound.2.1 Unit (createRetryConfig [])
      (fun _ => .error 400) 400 rfl (Or.inr (by decide))
  · exact C4_executeWithRetry_bound.1 Unit (createRetryConfig []) (fun _ => .error 500)

theorem takeWhile_dropWhile_at_backslash (a b : List Char)
    (h : '\\' ∉ a) :
    (a ++ '\\' :: b).takeWhile (fun c => ¬ c = '\\') = a ∧
    (a ++ '\\' :: b).dropWhile (fun c => ¬ c = '\\') = '\\' :: b := by
  induction a with
  | nil => simp [List.takeWhile, List.dropWhile]
  | cons x xs ih =>
    have hx : ¬ x = '\\' := fun hxx => h (by simp [hxx])
    have hxs : '\\' ∉ xs := fun hm => h (by simp [hm])
    obtain ⟨ih1, ih2⟩ := ih hxs
    constructor
    · simpa [List.takeWhile_cons, hx] using ih1
    · simpa [List.dropWhile_cons, hx] using ih2

/-- C9.  Stateful-marker round-trip: for every modelId and marker that are
nonempty after trimming, with no backslash in the modelId, parsing the
part produced by the creator returns exactly the trimmed pair; a part
with a non-string or different mimeType, or non-`Uint8Array` data, or a
payload with no backslash separator after position 0, parses to `null`. -/
theorem C9_marker_roundtrip :
    (∀ modelId marker : List Char,
      ¬ (trimList modelId).isEmpty → ¬ (trimList marker).isEmpty →
      '\\' ∉ modelId →
      parseOpenAIResponsesStatefulMarkerPart
          (createOpenAIResponsesStatefulMarkerPart modelId marker)
        = some (trimList modelId, trimList marker)) ∧
    (∀ d : PartData, parseOpenAIResponsesStatefulMarkerPart ⟨none, d⟩ = none) ∧
    (∀ (mt : List Char) (d : PartData), mt ≠ OPENAI_RESPONSES_STATEFUL_MARKER_MIME →
      parseOpenAIResponsesStatefulMarkerPart ⟨some mt, d⟩ = none) ∧
    (∀ mt : Option (List Char),
      parseOpenAIResponsesStatefulMarkerPart ⟨mt, .notBytes⟩ = none) ∧
    (∀ payload : List Char,
      ('\\' ∉ payload ∨ ∃ t, payload = '\\' :: t) →
      parseOpenAIResponsesStatefulMarkerPart
          ⟨some OPENAI_RESPONSES_STATEFUL_MARKER_MIME, .bytes payload⟩ = none) := by
  refine ⟨?_, ?_, ?_, ?_, ?_⟩
  · intro modelId marker hm hk hbs
    unfold parseOpenAIResponsesStatefulMarkerPart createOpenAIResponsesStatefulMarkerPart
    simp only []
    rw [if_neg (fun hne => hne rfl)]
    obtain ⟨ht, hd⟩ := takeWhile_dropWhile_at_backslash modelId marker hbs
    rw [ht, hd]
    dsimp only
    have hne : ¬ modelId.isEmpty := by
      intro he
      rw [List.isEmpty_iff] at he
      subst he
      exact hm (by simp [trimList])
    rw [if_neg hne, if_neg (by push_neg; exact ⟨hm, hk⟩)]
  · intro d; rfl
  · intro mt d hne
    unfold parseOpenAIResponsesStatefulMarkerPart
    rcases d with payload | _
    · simp only []
      rw [if_pos hne]
    · rfl
  · intro mt
    rcases mt with _ | mtv <;> rfl
  · intro payload hcase
    unfold parseOpenAIResponsesStatefulMarkerPart
    simp only []
    rw [if_neg (fun hne => hne rfl)]
    rcases hcase with hno | ⟨t, rfl⟩
    · have : payload.dropWhile (fun c => ¬ c = '\\') = [] := by
        rw [List.dropWhile_eq_nil_iff]
        intro x hx
        simp only [decide_not]
        have : ¬ x = '\\' := fun hxe => hno (hxe ▸ hx)
        simpa using this
      rw [this]
    · have hd : ('\\' :: t).dropWhile (fun c => ¬ c = '\\') = '\\' :: t := by
        simp [List.dropWhile_cons]
      have htk : ('\\' :: t).takeWhile (fun c => ¬ c = '\\') = [] := by
        simp [List.takeWhile_cons]
      rw [hd, htk]
      simp

/-- Witness for C9: a concrete round-trip (modelId `m`, marker ` id1 `
trimming to `id1`) and the concrete rejection cases. -/
theorem C9_marker_roundtrip_witness :
    parseOpenAIResponsesStatefulMarkerPart
        (createOpenAIResponsesStatefulMarkerPart (chars "m") (chars " id1 "))
      = some (chars "m", chars "id1") ∧
    parseOpenAIResponsesStatefulMarkerPart ⟨some (chars "text/plain"), .bytes (chars "m\\x")⟩
      = none ∧
    parseOpenAIResponsesStatefulMarkerPart
        ⟨some OPENAI_RESPONSES_STATEFUL_MARKER_MIME, .bytes (chars "nobackslash")⟩
      = none := by
  refine ⟨?_, ?_, ?_⟩
  · exact C9_marker_roundtrip.1 (chars "m") (chars " id1 ")
      (by decide) (by decide) (by decide)
  · exact C9_marker_roundtrip.2.2.1 (chars "text/plain") _ (by decide)
  · exact C9_marker_roundtrip.2.2.2.2 (chars "nobackslash") (Or.inl (by decide))

theorem getAssoc_eq_none_of_not_any {κ α : Type} [DecidableEq κ]
    (fs : List (κ × α)) (k : κ) (h : ¬ fs.any (fun p => p.1 = k) = true) :
    getAssoc fs k = none := by
  induction fs with
  | nil => rfl
  | cons p rest ih =>
    obtain ⟨pk, pv⟩ := p
    simp only [List.any_cons, Bool.or_eq_true, not_or] at h
    simp only [getAssoc]
    rw [if_neg (by simpa using h.1)]
    exact ih h.2

theorem getAssoc_map_update_self {κ α : Type} [DecidableEq κ]
    (fs : List (κ × α)) (k : κ) (v : α) :
    getAssoc (fs.map fun p => if p.1 = k then (k, v) else p) k
      = if fs.any (fun p => p.1 = k) = true then some v else none := by
  induction fs with
  | nil => rfl
  | cons p rest ih =>
    obtain ⟨pk, pv⟩ := p
    by_cases hpk : pk = k
    · subst hpk
      simp only [List.map_cons, List.any_cons]
      rw [if_pos (trivial : True)]
      simp [getAssoc]
    · simp only [List.map_cons, List.any_cons]
      rw [show (if (pk, pv).1 = k then (k, v) else (pk, pv)) = (pk, pv) from
        if_neg (by simpa using hpk)]
      simp only [getAssoc]
      rw [if_neg hpk, ih]
      have hdk : (decide (pk = k)) = false := by simp [hpk]
      simp only [hdk, Bool.false_or]

theorem getAssoc_map_update_ne {κ α : Type} [DecidableEq κ]
    (fs : List (κ × α)) (key k : κ) (v : α) (hne : ¬ key = k) :
    getAssoc (fs.map fun p => if p.1 = key then (key, v) else p) k
      = getAssoc fs k := by
  induction fs with
  | nil => rfl
  | cons p rest ih =>
    obtain ⟨pk, pv⟩ := p
    by_cases hpk : pk = key
    · subst hpk
      simp only [List.map_cons, if_pos rfl]
      simp only [getAssoc]
      rw [if_neg hne, if_neg hne]
      exact ih
    · simp only [List.map_cons]
      rw [show (if (pk, pv).1 = key then (key, v) else (pk, pv)) = (pk, pv) from
        if_neg (by simpa using hpk)]
      simp only [getAssoc]
      by_cases hk : pk = k
      · rw [if_pos hk, if_pos hk]
      · rw [if_neg hk, if_neg hk]
        exact ih

theorem getAssoc_setAssoc_self {κ α : Type} [DecidableEq κ]
    (fs : List (κ × α)) (k : κ) (v : α) :
    getAssoc (setAssoc fs k v) k = some v := by
  unfold setAssoc
  by_cases hc : fs.any (fun p => p.1 = k) = true
  · rw [if_pos hc, getAssoc_map_update_self, if_pos hc]
  · rw [if_neg hc, getAssoc_append, getAssoc_eq_none_of_not_any fs k hc]
    simp [getAssoc]

theorem getAssoc_setAssoc_ne {κ α : Type} [DecidableEq κ]
    (fs : List (κ × α)) (key k : κ) (v : α) (hne : ¬ key = k) :
    getAssoc (setAssoc fs key v) k = getAssoc fs k := by
  unfold setAssoc
  by_cases hc : fs.any (fun p => p.1 = key) = true
  · rw [if_pos hc, getAssoc_map_update_ne fs key k v hne]
  · rw [if_neg hc, getAssoc_append]
    rcases h : getAssoc fs k with _ | w
    · simp [getAssoc, hne]
    · rfl

theorem getAssoc_delAssoc_self {κ α : Type} [DecidableEq κ]
    (fs : List (κ × α)) (k : κ) :
    getAssoc (delAssoc fs k) k = none := by
  induction fs with
  | nil => rfl
  | cons p rest ih =>
    obtain ⟨pk, pv⟩ := p
    unfold delAssoc
    by_cases hpk : pk = k
    · rw [if_pos hpk]
      exact ih
    · rw [if_neg hpk]
      simp only [getAssoc]
      rw [if_neg hpk]
      exact ih

theorem getAssoc_delAssoc_ne {κ α : Type} [DecidableEq κ]
    (fs : List (κ × α)) (key k : κ) (hne : ¬ key = k) :
    getAssoc (delAssoc fs key) k = getAssoc fs k := by
  induction fs with
  | nil => rfl
  | cons p rest ih =>
    obtain ⟨pk, pv⟩ := p
    unfold delAssoc
    by_cases hpk : pk = key
    · rw [if_pos hpk]
      simp only [getAssoc]
      rw [if_neg (hpk ▸ (fun h => hne (hpk ▸ h)) : ¬ pk = k)]
      exact ih
    · rw [if_neg hpk]
      simp only [getAssoc]
      by_cases hk : pk = k
      · rw [if_pos hk, if_pos hk]
      · rw [if_neg hk, if_neg hk]
        exact ih

theorem getAssoc_condSet_ne (rb : Body) (c : Bool) (key k : List Char) (v : Json)
    (hne : ¬ key = k) : getAssoc (condSet rb c key v) k = getAssoc rb k := by
  unfold condSet
  rcases c with _ | _
  · simp
  · simp only [if_true]
    exact getAssoc_setAssoc_ne rb key k v hne

theorem applyCondSets_nil (rb : Body) : applyCondSets rb [] = rb := rfl

theorem applyCondSets_cons (rb : Body) (s : Bool × List Char × Json)
    (rest : List (Bool × List Char × Json)) :
    applyCondSets rb (s :: rest) = applyCondSets (condSet rb s.1 s.2.1 s.2.2) rest := rfl

theorem getAssoc_applyCondSets_ne (steps : List (Bool × List Char × Json)) :
    ∀ (rb : Body) (k : List Char), (∀ s ∈ steps, ¬ s.2.1 = k) →
      getAssoc (applyCondSets rb steps) k = getAssoc rb k := by
  induction steps with
  | nil => intro rb k _; rfl
  | cons s rest ih =>
    intro rb k h
    unfold applyCondSets at ih ⊢
    simp only [List.foldl_cons]
    rw [ih _ k (fun s2 hs2 => h s2 (by simp [hs2]))]
    exact getAssoc_condSet_ne rb s.1 s.2.1 k s.2.2 (h s (by simp))

theorem getAssoc_mergeExtraStep_ne (acc : Body) (p : List Char × Json)
    (k : List Char) (hp : ¬ p.1 = k) :
    getAssoc (mergeExtraStep acc p) k = getAssoc acc k := by
  unfold mergeExtraStep
  by_cases hu : p.2.isUndef = true
  · rw [if_pos hu]
  · rw [if_neg hu]
    exact getAssoc_setAssoc_ne acc p.1 k p.2 hp

theorem getAssoc_foldl_mergeExtraStep_ne (l : List (List Char × Json))
    (k : List Char) :
    ∀ rb : Body, (∀ p ∈ l, ¬ p.1 = k) →
      getAssoc (l.foldl mergeExtraStep rb) k = getAssoc rb k := by
  induction l with
  | nil => intro rb _; rfl
  | cons p rest ih =>
    intro rb h
    simp only [List.foldl_cons]
    rw [ih _ (fun q hq => h q (by simp [hq]))]
    exact getAssoc_mergeExtraStep_ne rb p k (h p (by simp))

theorem getAssoc_mergeExtra_ne (rb : Body) (extra : Json) (k : List Char)
    (hclean : ∀ p ∈ extra.entries, ¬ p.1 = k) :
    getAssoc (mergeExtra rb extra) k = getAssoc rb k := by
  unfold mergeExtra
  by_cases he : (extra.truthy && extra.typeofIsObject) = true
  · rw [if_pos he]
    exact getAssoc_foldl_mergeExtraStep_ne extra.entries k rb hclean
  · rw [if_neg he]

theorem getAssoc_mergeExtraResponsesStep_ne (acc : Body) (p : List Char × Json)
    (k : List Char) (hreas : ¬ chars "reasoning" = k) (hp : ¬ p.1 = k) :
    getAssoc (mergeExtraResponsesStep acc p) k = getAssoc acc k := by
  unfold mergeExtraResponsesStep
  by_cases hu : p.2.isUndef = true
  · rw [if_pos hu]
  · rw [if_neg hu]
    by_cases hr : p.1 = chars "reasoning"
    · rw [if_pos hr]
      rcases o1 : Json.objFields? p.2 with _ | vf <;>
        rcases o2 : Json.objFields?
            ((getAssoc acc (chars "reasoning")).getD .undef) with _ | ef <;>
          simp only [] <;>
            first
              | exact getAssoc_setAssoc_ne acc p.1 k p.2 hp
              | exact getAssoc_setAssoc_ne acc (chars "reasoning") k _ hreas
    · rw [if_neg hr]
      exact getAssoc_setAssoc_ne acc p.1 k p.2 hp

theorem getAssoc_foldl_mergeExtraResponsesStep_ne (l : List (List Char × Json))
    (k : List Char) (hreas : ¬ chars "reasoning" = k) :
    ∀ rb : Body, (∀ p ∈ l, ¬ p.1 = k) →
      getAssoc (l.foldl mergeExtraResponsesStep rb) k = getAssoc rb k := by
  induction l with
  | nil => intro rb _; rfl
  | cons p rest ih =>
    intro rb h
    simp only [List.foldl_cons]
    rw [ih _ (fun q hq => h q (by simp [hq]))]
    exact getAssoc_mergeExtraResponsesStep_ne rb p k hreas (h p (by simp))

theorem getAssoc_mergeExtraResponses_ne (rb : Body) (extra : Json) (k : List Char)
    (hreas : ¬ chars "reasoning" = k)
    (hclean : ∀ p ∈ extra.entries, ¬ p.1 = k) :
    getAssoc (mergeExtraResponses rb extra) k = getAssoc rb k := by
  unfold mergeExtraResponses
  by_cases he : (extra.truthy && extra.typeofIsObject) = true
  · rw [if_pos he]
    exact getAssoc_foldl_mergeExtraResponsesStep_ne extra.entries k hreas rb hclean
  · rw [if_neg he]

theorem getAssoc_maxTokenStep_ne (rb : Body) (um : HFModelItem) (k : List Char)
    (h1 : ¬ chars "max_completion_tokens" = k) (h2 : ¬ chars "max_tokens" = k) :
    getAssoc (maxTokenStep rb um) k = getAssoc rb k := by
  unfold maxTokenStep
  by_cases c1 : ¬ um.max_completion_tokens.isUndef = true
  · rw [if_pos c1]
    exact getAssoc_setAssoc_ne rb _ k _ h1
  · rw [if_neg c1]
    by_cases c2 : ¬ um.max_tokens.isUndef = true
    · rw [if_pos c2]
      exact getAssoc_setAssoc_ne rb _ k _ h2
    · rw [if_neg c2]

theorem getAssoc_openrouterReasoningStep_ne (rb : Body) (um : HFModelItem)
    (k : List Char) (hne : ¬ chars "reasoning" = k) :
    getAssoc (openrouterReasoningStep rb um) k = getAssoc rb k := by
  unfold openrouterReasoningStep
  by_cases c1 : ¬ um.reasoning.isUndef = true
  · rw [if_pos c1]
    by_cases c2 : (um.reasoning.getProp (chars "enabled")).eqBoolFalse = true
    · rw [if_pos c2]
    · rw [if_neg c2]
      exact getAssoc_setAssoc_ne rb _ k _ hne
  · rw [if_neg c1]

theorem getAssoc_maxOutputTokensStep_ne (rb : Body) (um : HFModelItem)
    (k : List Char) (h1 : ¬ chars "max_output_tokens" = k) :
    getAssoc (maxOutputTokensStep rb um) k = getAssoc rb k := by
  unfold maxOutputTokensStep
  by_cases c1 : ¬ um.max_completion_tokens.isUndef = true
  · rw [if_pos c1]
    exact getAssoc_setAssoc_ne rb _ k _ h1
  · rw [if_neg c1]
    by_cases c2 : ¬ um.max_tokens.isUndef = true
    · rw [if_pos c2]
      exact getAssoc_setAssoc_ne rb _ k _ h1
    · rw [if_neg c2]

theorem getAssoc_reasoningEffortStep_ne (rb : Body) (um : HFModelItem)
    (k : List Char) (hne : ¬ chars "reasoning" = k) :
    getAssoc (reasoningEffortStep rb um) k = getAssoc rb k := by
  unfold reasoningEffortStep
  by_cases c1 : ¬ um.reasoning_effort.isUndef = true
  · rw [if_pos c1]
    exact getAssoc_setAssoc_ne rb _ k _ hne
  · rw [if_neg c1]

/-- The Responses request-body builder writes only its own field names:
any other key (here: `input`) survives untouched when the extra
passthrough does not name it. -/
theorem responsesPrepare_preserves_input (rb : Body) (um : HFModelItem)
    (sys mo tools tc : Json)
    (hclean : ∀ p ∈ um.extra.entries, ¬ p.1 = chars "input") :
    getAssoc (responsesPrepareRequestBody rb um sys mo tools tc) (chars "input")
      = getAssoc rb (chars "input") := by
  unfold responsesPrepareRequestBody
  rw [getAssoc_mergeExtraResponses_ne _ _ _ (by decide) hclean]
  simp only [applyCondSets_cons, applyCondSets_nil]
  rw [getAssoc_condSet_ne _ _ _ _ _ (by decide)]
  rw [getAssoc_condSet_ne _ _ _ _ _ (by decide)]
  rw [getAssoc_condSet_ne _ _ _ _ _ (by decide)]
  rw [getAssoc_condSet_ne _ _ _ _ _ (by decide)]
  rw [getAssoc_reasoningEffortStep_ne _ _ _ (by decide)]
  rw [getAssoc_maxOutputTokensStep_ne _ _ _ (by decide)]
  rw [getAssoc_condSet_ne _ _ _ _ _ (by decide)]
  rw [getAssoc_condSet_ne _ _ _ _ _ (by decide)]
  rw [getAssoc_condSet_ne _ _ _ _ _ (by decide)]

/-- The `max_tokens` field of a prepared Chat Completions body (extra not
naming it): present exactly when the configuration sets `max_tokens` and
not `max_completion_tokens`. -/
theorem openaiPrepare_max_tokens (model messages : Json) (um : HFModelItem)
    (mo tools tc : Json)
    (hclean : ∀ p ∈ um.extra.entries, ¬ p.1 = chars "max_tokens") :
    getAssoc (openaiPrepareRequestBody (openaiBaseBody model messages) um mo tools tc)
        (chars "max_tokens")
      = if ¬ um.max_completion_tokens.isUndef = true then none
        else if ¬ um.max_tokens.isUndef = true then some um.max_tokens
        else none := by
  unfold openaiPrepareRequestBody
  rw [getAssoc_mergeExtra_ne _ _ _ hclean]
  simp only [applyCondSets_cons, applyCondSets_nil]
  rw [getAssoc_condSet_ne _ _ _ _ _ (by decide)]
  rw [getAssoc_condSet_ne _ _ _ _ _ (by decide)]
  rw [getAssoc_condSet_ne _ _ _ _ _ (by decide)]
  rw [getAssoc_condSet_ne _ _ _ _ _ (by decide)]
  rw [getAssoc_condSet_ne _ _ _ _ _ (by decide)]
  rw [getAssoc_condSet_ne _ _ _ _ _ (by decide)]
  rw [getAssoc_condSet_ne _ _ _ _ _ (by decide)]
  rw [getAssoc_condSet_ne _ _ _ _ _ (by decide)]
  rw [getAssoc_openrouterReasoningStep_ne _ _ _ (by decide)]
  rw [getAssoc_condSet_ne _ _ _ _ _ (by decide)]
  rw [getAssoc_condSet_ne _ _ _ _ _ (by decide)]
  rw [getAssoc_condSet_ne _ _ _ _ _ (by decide)]
  rw [getAssoc_condSet_ne _ _ _ _ _ (by decide)]
  unfold maxTokenStep
  by_cases c1 : ¬ um.max_completion_tokens.isUndef = true
  · rw [if_pos c1, if_pos c1]
    rw [getAssoc_setAssoc_ne _ _ _ _ (by decide)]
    rw [getAssoc_condSet_ne _ _ _ _ _ (by decide)]
    rw [getAssoc_condSet_ne _ _ _ _ _ (by decide)]
    rfl
  · rw [if_neg c1, if_neg c1]
    by_cases c2 : ¬ um.max_tokens.isUndef = true
    · rw [if_pos c2, if_pos c2]
      rw [getAssoc_setAssoc_self]
    · rw [if_neg c2, if_neg c2]
      rw [getAssoc_condSet_ne _ _ _ _ _ (by decide)]
      rw [getAssoc_condSet_ne _ _ _ _ _ (by decide)]
      rfl

/-- The `max_completion_tokens` field of a prepared Chat Completions body
(extra not naming it): present exactly when the configuration sets it. -/
theorem openaiPrepare_max_completion_tokens (model messages : Json)
    (um : HFModelItem) (mo tools tc : Json)
    (hclean : ∀ p ∈ um.extra.entries, ¬ p.1 = chars "max_completion_tokens") :
    getAssoc (openaiPrepareRequestBody (openaiBaseBody model messages) um mo tools tc)
        (chars "max_completion_tokens")
      = if ¬ um.max_completion_tokens.isUndef = true
        then some um.max_completion_tokens else none := by
  unfold openaiPrepareRequestBody
  rw [getAssoc_mergeExtra_ne _ _ _ hclean]
  simp only [applyCondSets_cons, applyCondSets_nil]
  rw [getAssoc_condSet_ne _ _ _ _ _ (by decide)]
  rw [getAssoc_condSet_ne _ _ _ _ _ (by decide)]
  rw [getAssoc_condSet_ne _ _ _ _ _ (by decide)]
  rw [getAssoc_condSet_ne _ _ _ _ _ (by decide)]
  rw [getAssoc_condSet_ne _ _ _ _ _ (by decide)]
  rw [getAssoc_condSet_ne _ _ _ _ _ (by decide)]
  rw [getAssoc_condSet_ne _ _ _ _ _ (by decide)]
  rw [getAssoc_condSet_ne _ _ _ _ _ (by decide)]
  rw [getAssoc_openrouterReasoningStep_ne _ _ _ (by decide)]
  rw [getAssoc_condSet_ne _ _ _ _ _ (by decide)]
  rw [getAssoc_condSet_ne _ _ _ _ _ (by decide)]
  rw [getAssoc_condSet_ne _ _ _ _ _ (by decide)]
  rw [getAssoc_condSet_ne _ _ _ _ _ (by decide)]
  unfold maxTokenStep
  by_cases c1 : ¬ um.max_completion_tokens.isUndef = true
  · rw [if_pos c1, if_pos c1]
    rw [getAssoc_setAssoc_self]
  · rw [if_neg c1, if_neg c1]
    by_cases c2 : ¬ um.max_tokens.isUndef = true
    · rw [if_pos c2]
      rw [getAssoc_setAssoc_ne _ _ _ _ (by decide)]
      rw [getAssoc_condSet_ne _ _ _ _ _ (by decide)]
      rw [getAssoc_condSet_ne _ _ _ _ _ (by decide)]
      rfl
    · rw [if_neg c2]
      rw [getAssoc_condSet_ne _ _ _ _ _ (by decide)]
      rw [getAssoc_condSet_ne _ _ _ _ _ (by decide)]
      rfl

/-- The Responses request-body builder never writes the chat-style
max-token field names (it uses the single `max_output_tokens`), so a
prepared Responses body contains neither when the extra passthrough
names neither. -/
theorem responsesPrepare_no_chat_max_fields (model input : Json)
    (um : HFModelItem) (sys mo tools tc : Json)
    (h1 : ∀ p ∈ um.extra.entries, ¬ p.1 = chars "max_tokens")
    (h2 : ∀ p ∈ um.extra.entries, ¬ p.1 = chars "max_completion_tokens") :
    getAssoc (responsesPrepareRequestBody (responsesBaseBody model input)
        um sys mo tools tc) (chars "max_tokens") = none ∧
    getAssoc (responsesPrepareRequestBody (responsesBaseBody model input)
        um sys mo tools tc) (chars "max_completion_tokens") = none := by
  constructor
  all_goals
    unfold responsesPrepareRequestBody
  · rw [getAssoc_mergeExtraResponses_ne _ _ _ (by decide) h1]
    simp only [applyCondSets_cons, applyCondSets_nil]
    rw [getAssoc_condSet_ne _ _ _ _ _ (by decide)]
    rw [getAssoc_condSet_ne _ _ _ _ _ (by decide)]
    rw [getAssoc_condSet_ne _ _ _ _ _ (by decide)]
    rw [getAssoc_condSet_ne _ _ _ _ _ (by decide)]
    rw [getAssoc_reasoningEffortStep_ne _ _ _ (by decide)]
    rw [getAssoc_maxOutputTokensStep_ne _ _ _ (by decide)]
    rw [getAssoc_condSet_ne _ _ _ _ _ (by decide)]
    rw [getAssoc_condSet_ne _ _ _ _ _ (by decide)]
    rw [getAssoc_condSet_ne _ _ _ _ _ (by decide)]
    rfl
  · rw [getAssoc_mergeExtraResponses_ne _ _ _ (by decide) h2]
    simp only [applyCondSets_cons, applyCondSets_nil]
    rw [getAssoc_condSet_ne _ _ _ _ _ (by decide)]
    rw [getAssoc_condSet_ne _ _ _ _ _ (by decide)]
    rw [getAssoc_condSet_ne _ _ _ _ _ (by decide)]
    rw [getAssoc_condSet_ne _ _ _ _ _ (by decide)]
    rw [getAssoc_reasoningEffortStep_ne _ _ _ (by decide)]
    rw [getAssoc_maxOutputTokensStep_ne _ _ _ (by decide)]
    rw [getAssoc_condSet_ne _ _ _ _ _ (by decide)]
    rw [getAssoc_condSet_ne _ _ _ _ _ (by decide)]
    rw [getAssoc_condSet_ne _ _ _ _ _ (by decide)]
    rfl

/-- C6 counterexample: the claim quantifies over every model
configuration, but the extra passthrough parameters (merged last,
verbatim) can reintroduce `max_tokens`: a configuration with
`max_completion_tokens` set and `extra.max_tokens` set produces a body
containing both fields. -/
theorem C6_counterexample :
    (getAssoc (openaiPrepareRequestBody
        (openaiBaseBody (.str (chars "m")) (.arr []))
        { max_completion_tokens := .num 1,
          extra := .obj [(chars "max_tokens", .num 2)] }
        .undef .undef .undef) (chars "max_tokens")).isSome = true ∧
    (getAssoc (openaiPrepareRequestBody
        (openaiBaseBody (.str (chars "m")) (.arr []))
        { max_completion_tokens := .num 1,
          extra := .obj [(chars "max_tokens", .num 2)] }
        .undef .undef .undef) (chars "max_completion_tokens")).isSome = true := by
  exact ⟨rfl, rfl⟩

/-- C6 (amended).  Max-token field exclusivity holds for every model
configuration whose extra passthrough parameters set neither max-token
field: the Chat Completions body contains at most one of `max_tokens` and
`max_completion_tokens`; when the configuration sets both, the body
contains `max_completion_tokens` and not `max_tokens`; and the Responses
adapter (whose single chosen field is `max_output_tokens`) adds neither
chat-style field. -/
theorem C6_max_token_exclusivity :
    (∀ (model messages : Json) (um : HFModelItem) (mo tools tc : Json),
      (∀ p ∈ um.extra.entries, ¬ p.1 = chars "max_tokens") →
      (∀ p ∈ um.extra.entries, ¬ p.1 = chars "max_completion_tokens") →
      ¬ ((getAssoc (openaiPrepareRequestBody (openaiBaseBody model messages)
            um mo tools tc) (chars "max_tokens")).isSome = true ∧
         (getAssoc (openaiPrepareRequestBody (openaiBaseBody model messages)
            um mo tools tc) (chars "max_completion_tokens")).isSome = true)) ∧
    (∀ (model messages : Json) (um : HFModelItem) (mo tools tc : Json),
      (∀ p ∈ um.extra.entries, ¬ p.1 = chars "max_tokens") →
      ¬ um.max_completion_tokens.isUndef = true →
      getAssoc (openaiPrepareRequestBody (openaiBaseBody model messages)
        um mo tools tc) (chars "max_tokens") = none) ∧
    (∀ (model messages : Json) (um : HFModelItem) (mo tools tc : Json),
      (∀ p ∈ um.extra.entries, ¬ p.1 = chars "max_completion_tokens") →
      ¬ um.max_completion_tokens.isUndef = true →
      getAssoc (openaiPrepareRequestBody (openaiBaseBody model messages)
        um mo tools tc) (chars "max_completion_tokens")
        = some um.max_completion_tokens) ∧
    (∀ (model input : Json) (um : HFModelItem) (sys mo tools tc : Json),
      (∀ p ∈ um.extra.entries, ¬ p.1 = chars "max_tokens") →
      (∀ p ∈ um.extra.entries, ¬ p.1 = chars "max_completion_tokens") →
      getAssoc (responsesPrepareRequestBody (responsesBaseBody model input)
        um sys mo tools tc) (chars "max_tokens") = none ∧
      getAssoc (responsesPrepareRequestBody (responsesBaseBody model input)
        um sys mo tools tc) (chars "max_completion_tokens") = none) := by
  refine ⟨?_, ?_, ?_, ?_⟩
  · intro model messages um mo tools tc h1 h2 ⟨hmt, hmct⟩
    rw [openaiPrepare_max_tokens model messages um mo tools tc h1] at hmt
    rw [openaiPrepare_max_completion_tokens model messages um mo tools tc h2] at hmct
    by_cases c1 : ¬ um.max_completion_tokens.isUndef = true
    · rw [if_pos c1] at hmt
      simp at hmt
    · rw [if_neg c1] at hmct
      simp at hmct
  · intro model messages um mo tools tc h1 hc
    rw [openaiPrepare_max_tokens model messages um mo tools tc h1, if_pos hc]
  · intro model messages um mo tools tc h2 hc
    rw [openaiPrepare_max_completion_tokens model messages um mo tools tc h2,
      if_pos hc]
  · intro model input um sys mo tools tc h1 h2
    exact responsesPrepare_no_chat_max_fields model input um sys mo tools tc h1 h2

/-- Witness for C6: a configuration setting both `max_tokens` and
`max_completion_tokens` (extra unset) produces a body with
`max_completion_tokens` and without `max_tokens`. -/
theorem C6_max_token_exclusivity_witness :
    getAssoc (openaiPrepareRequestBody
        (openaiBaseBody (.str (chars "m")) (.arr []))
        { max_tokens := .num 5, max_completion_tokens := .num 7 }
        .undef .undef .undef) (chars "max_tokens") = none ∧
    getAssoc (openaiPrepareRequestBody
        (openaiBaseBody (.str (chars "m")) (.arr []))
        { max_tokens := .num 5, max_completion_tokens := .num 7 }
        .undef .undef .undef) (chars "max_completion_tokens") = some (.num 7) ∧
    getAssoc (responsesPrepareRequestBody
        (responsesBaseBody (.str (chars "m")) (.arr []))
        { max_tokens := .num 5, max_completion_tokens := .num 7 }
        .undef .undef .undef .undef) (chars "max_tokens") = none := by
  refine ⟨?_, ?_, ?_⟩
  · exact C6_max_token_exclusivity.2.1 (.str (chars "m")) (.arr [])
      { max_tokens := .num 5, max_completion_tokens := .num 7 } .undef .undef .undef
      (by intro p hp; simp [Json.entries] at hp) (by decide)
  · exact C6_max_token_exclusivity.2.2.1 (.str (chars "m")) (.arr [])
      { max_tokens := .num 5, max_completion_tokens := .num 7 } .undef .undef .undef
      (by intro p hp; simp [Json.entries] at hp) (by decide)
  · exact (C6_max_token_exclusivity.2.2.2 (.str (chars "m")) (.arr [])
      { max_tokens := .num 5, max_completion_tokens := .num 7 }
      .undef .undef .undef .undef
      (by intro p hp; simp [Json.entries] at hp)
      (by intro p hp; simp [Json.entries] at hp)).1

/-- C5.  Continuity fallback: when the request body carried an
automatically attached `previous_response_id` and the transport answers
a 4xx status other than 429, the base URL is appended to the unsupported
set and exactly one synchronous resend is made whose body has no
`previous_response_id` field and carries the full converted history
(extra passthrough not overriding `input`); a base URL in the
unsupported set never has `previous_response_id` attached automatically,
and the unsupported set only grows across a send. -/
theorem C5_continuity_fallback :
    (∀ (unsupported : List (List Char)) (inp : ResponsesFlowInput)
        (http : Body → Except Nat Unit) (status : Nat),
      (responsesAttachState unsupported inp).2 = true →
      http (responsesAttachState unsupported inp).1 = .error status →
      400 ≤ status → status < 500 → ¬ status = 429 →
      ∃ fb,
        responsesFlow unsupported inp http
          = ([(responsesAttachState unsupported inp).1, fb],
             unsupported ++ [inp.baseUrl], true, http fb) ∧
        getAssoc fb (chars "previous_response_id") = none ∧
        ((∀ p ∈ inp.um.extra.entries, ¬ p.1 = chars "input") →
          getAssoc fb (chars "input") = some inp.fullInput)) ∧
    (∀ (unsupported : List (List Char)) (inp : ResponsesFlowInput),
      unsupported.contains inp.baseUrl = true →
      (responsesAttachState unsupported inp).2 = false) ∧
    (∀ (unsupported : List (List Char)) (inp : ResponsesFlowInput)
        (http : Body → Except Nat Unit) (x : List Char),
      x ∈ unsupported → x ∈ (responsesFlow unsupported inp http).2.1) := by
  refine ⟨?_, ?_, ?_⟩
  · intro unsupported inp http status hadd herr h4a h4b h429
    refine ⟨delAssoc (responsesPrepareRequestBody
        (responsesBaseBody inp.modelId inp.fullInput) inp.um inp.systemContent
        inp.modelOptions inp.tools inp.toolChoice)
        (chars "previous_response_id"), ?_, ?_, ?_⟩
    · unfold responsesFlow
      dsimp only
      rw [herr]
      dsimp only
      rw [if_pos ⟨hadd, h4a, h4b, h429⟩]
      rw [hadd]
    · exact getAssoc_delAssoc_self _ _
    · intro hclean
      rw [getAssoc_delAssoc_ne _ _ _ (by decide)]
      rw [responsesPrepare_preserves_input _ _ _ _ _ _ hclean]
      rfl
  · intro unsupported inp hcontains
    unfold responsesAttachState
    dsimp only
    simp only [hcontains, Bool.not_true, Bool.and_false, Bool.false_and]
    simp only [Bool.false_eq_true, if_false]
    split <;> rfl
  · intro unsupported inp http x hx
    unfold responsesFlow
    dsimp only
    cases hh : http (responsesAttachState unsupported inp).1 with
    | ok u =>
      dsimp only
      exact hx
    | error status =>
      dsimp only
      by_cases hc : (responsesAttachState unsupported inp).2 = true ∧
          400 ≤ status ∧ status < 500 ∧ ¬ status = 429
      · rw [if_pos hc]
        exact List.mem_append_left _ hx
      · rw [if_neg hc]
        exact hx

/-- Witness for C5 at a concrete input: a delta-carrying request against
a 404-on-continuity transport triggers exactly the fallback resend; a
base URL already unsupported never attaches `previous_response_id`; the
unsupported set is monotone. -/
theorem C5_continuity_fallback_witness :
    (∃ fb,
      responsesFlow [] responsesFlowExample responsesHttpExample
        = ([(responsesAttachState [] responsesFlowExample).1, fb],
           [] ++ [responsesFlowExample.baseUrl], true, responsesHttpExample fb) ∧
      getAssoc fb (chars "previous_response_id") = none ∧
      ((∀ p ∈ responsesFlowExample.um.extra.entries, ¬ p.1 = chars "input") →
        getAssoc fb (chars "input") = some responsesFlowExample.fullInput)) ∧
    (responsesAttachState [responsesFlowExample.baseUrl]
        responsesFlowExample).2 = false ∧
    responsesFlowExample.baseUrl
      ∈ (responsesFlow [responsesFlowExample.baseUrl] responsesFlowExample
          responsesHttpExample).2.1 :=
  ⟨C5_continuity_fallback.1 [] responsesFlowExample responsesHttpExample 404
      rfl rfl (by decide) (by decide) (by decide),
   C5_continuity_fallback.2.1 [responsesFlowExample.baseUrl]
      responsesFlowExample (by decide),
   C5_continuity_fallback.2.2 [responsesFlowExample.baseUrl]
      responsesFlowExample responsesHttpExample responsesFlowExample.baseUrl
      (List.mem_singleton.mpr rfl)⟩

end Theorems

end OaiCopilot
